import Mathlib

/-!
Verification of the git_syncer commit-level synchronization engine
(shuttl-io/shuttl, tooling/git_syncer).

This file gives a shallow embedding of the sync engine's pure core:
the path filter (`should_include_file`), the change classifier
(`filter_commit_files`), the provenance tracker
(`get_last_synced_commit`), the commit replicator
(`sync_single_commit`), the pending-commit enumeration
(`get_commits_since` / `get_pending_commits`) and the sync
orchestrator loop (`sync_run`).  File paths, byte contents, commit
hashes and messages are modelled as `List Char`; the destination
repository's working tree, index and commit log are modelled
explicitly as a `DestState` threaded through the replicator, together
with an ordered trace of mutation events.  External git primitives
(commit creation, commit enumeration) are oracle parameters.
-/

set_option maxRecDepth 4000

namespace GitSyncer

/-! ## Basic string utilities (on `List Char`) -/

/-- Does `hay` start with `pre`? (Python `str.startswith`.) -/
def startsWithL : List Char → List Char → Bool
  | _, [] => true
  | [], _ :: _ => false
  | a :: hay, b :: pre => a == b && startsWithL hay pre

/-- Python substring containment (`pat in hay`). -/
def containsSub : List Char → List Char → Bool
  | hay, pat =>
    startsWithL hay pat ||
      match hay with
      | [] => false
      | _ :: rest => containsSub rest pat

/-- Python `s.rstrip("/")`: drop every trailing `'/'`. -/
def rstripSlash (s : List Char) : List Char :=
  (s.reverse.dropWhile (fun c => c == '/')).reverse

/-- Split a character list on `'/'` (keeping empty segments),
mirroring how `pathlib` decomposes a relative path before its own
normalisation. -/
def splitSlash : List Char → List (List Char)
  | [] => [[]]
  | c :: rest =>
    if c = '/' then [] :: splitSlash rest
    else
      match splitSlash rest with
      | [] => [[c]]
      | s :: ss => (c :: s) :: ss

/-- `pathlib.PurePosixPath(p).parts` for a relative `p`: the slash
segments with empty segments and `"."` segments removed. -/
def pathParts (s : List Char) : List (List Char) :=
  (splitSlash s).filter (fun seg => !(seg.isEmpty || seg == ['.']))

/-- Python `str.lower`, restricted to the characters we model. -/
def toLowerL (s : List Char) : List Char := s.map Char.toLower

theorem splitSlash_no_slash (s : List Char) :
    ∀ seg ∈ splitSlash s, '/' ∉ seg := by
  induction s with
  | nil =>
    intro seg hseg
    simp only [splitSlash, List.mem_singleton] at hseg
    subst hseg; simp
  | cons c rest ih =>
    intro seg hseg
    by_cases hc : c = '/'
    · rw [splitSlash, if_pos hc] at hseg
      rcases List.mem_cons.mp hseg with h | h
      · subst h; simp
      · exact ih seg h
    · rw [splitSlash, if_neg hc] at hseg
      rcases hrec : splitSlash rest with _ | ⟨s0, ss⟩
      · rw [hrec] at hseg
        rcases List.mem_singleton.mp hseg with h
        subst h
        intro hmem
        rcases List.mem_singleton.mp hmem with h2
        exact hc h2.symm
      · rw [hrec] at hseg
        rcases List.mem_cons.mp hseg with h | h
        · subst h
          intro hmem
          rcases List.mem_cons.mp hmem with h2 | h2
          · exact hc h2.symm
          · exact ih s0 (by rw [hrec]; exact List.mem_cons_self _ _) h2
        · exact ih seg (by rw [hrec]; exact List.mem_cons_of_mem _ h)

theorem pathParts_no_slash (s : List Char) :
    ∀ seg ∈ pathParts s, '/' ∉ seg := by
  intro seg hseg
  exact splitSlash_no_slash s seg (List.mem_of_mem_filter hseg)

/-! ## Shell-glob matching (`fnmatch.fnmatch` on POSIX)

`fnmatch` compiles a pattern with `*` (any run of characters,
including `/`), `?` (any single character) and `[...]` character
classes (with `!` negation and `a-b` ranges; an unterminated `[` is a
literal) into a full-match regular expression.  `globM s p` decides
whether the whole string `s` matches pattern `p`. -/

/-- Scan a character-class body up to the closing `]`.  Returns the
class content and the remainder of the pattern after `]`, or `none`
when the class is unterminated. -/
def scanClass : List Char → Option (List Char × List Char)
  | [] => none
  | c :: rest =>
    if c = ']' then some ([], rest)
    else (scanClass rest).map (fun pr => (c :: pr.1, pr.2))

/-- Class content after optional negation: a leading `]` is part of
the content (as in `fnmatch.translate`). -/
def classBody : List Char → Option (List Char × List Char)
  | [] => none
  | c :: r =>
    if c = ']' then (scanClass r).map (fun pr => (']' :: pr.1, pr.2))
    else scanClass (c :: r)

/-- Parse the text following `[`: an optional `!` negation, then the
class content. -/
def classSplit : List Char → Option (Bool × List Char × List Char)
  | [] => none
  | c :: r =>
    if c = '!' then (classBody r).map (fun pr => (true, pr.1, pr.2))
    else (classBody (c :: r)).map (fun pr => (false, pr.1, pr.2))

/-- Membership of a character in a parsed class body: `a-b` denotes a
range, other characters are literal, a trailing `-` is literal. -/
def inClass : List Char → Char → Bool
  | [], _ => false
  | [a], c => a == c
  | [a, b], c => a == c || b == c
  | a :: d :: b :: rest, c =>
    if d = '-' then (decide (a ≤ c) && decide (c ≤ b)) || inClass rest c
    else a == c || inClass (d :: b :: rest) c

theorem scanClass_suffix (p : List Char) :
    ∀ cls rest, scanClass p = some (cls, rest) → p = cls ++ ']' :: rest := by
  induction p with
  | nil => intro cls rest h; simp [scanClass] at h
  | cons c r ih =>
    intro cls rest h
    by_cases hc : c = ']'
    · rw [scanClass, if_pos hc] at h
      injection h with h
      injection h with h1 h2
      subst h1; subst h2; subst hc; rfl
    · rw [scanClass, if_neg hc] at h
      rcases hscan : scanClass r with _ | ⟨cls0, rest0⟩
      · rw [hscan] at h; simp at h
      · rw [hscan] at h
        simp only [Option.map_some', Option.some.injEq, Prod.mk.injEq] at h
        obtain ⟨h1, h2⟩ := h
        subst h2
        rw [ih cls0 rest0 hscan, ← h1]
        rfl

theorem classBody_suffix (p : List Char) :
    ∀ cls rest, classBody p = some (cls, rest) →
      ∃ pre, p = pre ++ ']' :: rest := by
  intro cls rest h
  rcases p with _ | ⟨c, r⟩
  · simp [classBody] at h
  · by_cases hc : c = ']'
    · rw [classBody, if_pos hc] at h
      rcases hscan : scanClass r with _ | ⟨cls0, rest0⟩
      · rw [hscan] at h; simp at h
      · rw [hscan] at h
        simp only [Option.map_some', Option.some.injEq, Prod.mk.injEq] at h
        obtain ⟨h1, h2⟩ := h
        subst hc
        subst h2
        refine ⟨']' :: cls0, ?_⟩
        rw [scanClass_suffix r cls0 rest0 hscan]
        rfl
    · rw [classBody, if_neg hc] at h
      exact ⟨cls, scanClass_suffix (c :: r) cls rest h⟩

theorem classSplit_suffix (p : List Char) :
    ∀ neg cls rest, classSplit p = some (neg, cls, rest) →
      ∃ pre, p = pre ++ ']' :: rest := by
  intro neg cls rest h
  rcases p with _ | ⟨c, r⟩
  · simp [classSplit] at h
  · by_cases hc : c = '!'
    · rw [classSplit, if_pos hc] at h
      rcases hbody : classBody r with _ | ⟨cls0, rest0⟩
      · rw [hbody] at h; simp at h
      · rw [hbody] at h
        simp only [Option.map_some', Option.some.injEq, Prod.mk.injEq] at h
        obtain ⟨_, _, h3⟩ := h
        subst h3
        obtain ⟨pre, hpre⟩ := classBody_suffix r cls0 rest0 hbody
        exact ⟨c :: pre, by rw [hpre]; rfl⟩
    · rw [classSplit, if_neg hc] at h
      rcases hbody : classBody (c :: r) with _ | ⟨cls0, rest0⟩
      · rw [hbody] at h; simp at h
      · rw [hbody] at h
        simp only [Option.map_some', Option.some.injEq, Prod.mk.injEq] at h
        obtain ⟨_, _, h3⟩ := h
        subst h3
        exact classBody_suffix (c :: r) cls0 rest0 hbody

theorem scanClass_length (p : List Char) :
    ∀ cls rest, scanClass p = some (cls, rest) → rest.length < p.length := by
  intro cls rest h
  rw [scanClass_suffix p cls rest h]
  simp
  omega

theorem classSplit_length (p : List Char) :
    ∀ neg cls rest, classSplit p = some (neg, cls, rest) →
      rest.length < p.length := by
  intro neg cls rest h
  obtain ⟨pre, hpre⟩ := classSplit_suffix p neg cls rest h
  rw [hpre]
  simp
  omega

/-- Glob matching worker.  Each recursive call strictly decreases
`s.length + p.length`, and `fuel` is decremented exactly once per
call, so starting from any `fuel > s.length + p.length` the `0` branch
is unreachable and the function computes the usual full-match glob
semantics (structural recursion on `fuel` keeps it kernel-reducible). -/
def globGo : Nat → List Char → List Char → Bool
  | 0, _, _ => false
  | fuel + 1, s, p =>
    match p with
    | [] => s.isEmpty
    | pc :: pr =>
      if pc = '*' then
        globGo fuel s pr ||
          (match s with
           | [] => false
           | _ :: s' => globGo fuel s' p)
      else
        match s with
        | [] => false
        | c :: s' =>
          if pc = '?' then globGo fuel s' pr
          else if pc = '[' then
            match classSplit pr with
            | some (neg, cls, rest) =>
              (if neg then !(inClass cls c) else inClass cls c) && globGo fuel s' rest
            | none => (c == pc) && globGo fuel s' pr
          else (c == pc) && globGo fuel s' pr

/-- Full shell-glob match of string `s` against pattern `p`
(`fnmatch.fnmatch(s, p)` on POSIX, where `*` and `?` also match
`/`). -/
def globM (s p : List Char) : Bool :=
  globGo (s.length + p.length + 1) s p

/-- A pattern whose final character is a literal `'/'` can only match
strings containing `'/'` (classes are closed by `]`, so a trailing
`'/'` is always literal).  This is why testing a *path segment*
against a pattern with its trailing slash kept never succeeds. -/
theorem globGo_last_slash :
    ∀ fuel (s p : List Char), globGo fuel s p = true →
      p.getLast? = some '/' → '/' ∈ s := by
  intro fuel
  induction fuel with
  | zero =>
    intro s p h _
    simp [globGo] at h
  | succ n ih =>
    intro s p h hlast
    rcases p with _ | ⟨pc, pr⟩
    · simp at hlast
    · by_cases hstar : pc = '*'
      · rcases pr with _ | ⟨d, pr'⟩
        · rw [List.getLast?_singleton] at hlast
          injection hlast with hlast
          rw [hlast] at hstar
          exact absurd hstar (by decide)
        · rw [List.getLast?_cons_cons] at hlast
          rcases s with _ | ⟨c, s'⟩
          · simp only [globGo, if_pos hstar, Bool.or_false] at h
            exact ih [] (d :: pr') h hlast
          · simp only [globGo, if_pos hstar, Bool.or_eq_true] at h
            rcases h with h1 | h1
            · exact ih (c :: s') (d :: pr') h1 hlast
            · exact List.mem_cons_of_mem _
                (ih s' (pc :: d :: pr') h1
                  (by rw [List.getLast?_cons_cons]; exact hlast))
      · rcases s with _ | ⟨c, s'⟩
        · simp only [globGo, if_neg hstar] at h
          exact absurd h (by decide)
        · by_cases hq : pc = '?'
          · simp only [globGo, if_neg hstar, if_pos hq] at h
            rcases pr with _ | ⟨d, pr'⟩
            · rw [List.getLast?_singleton] at hlast
              injection hlast with hlast
              rw [hlast] at hq
              exact absurd hq (by decide)
            · rw [List.getLast?_cons_cons] at hlast
              exact List.mem_cons_of_mem _ (ih s' (d :: pr') h hlast)
          · by_cases hbr : pc = '['
            · rcases hcs : classSplit pr with _ | ⟨neg, cls, rest⟩
              · simp only [globGo, if_neg hstar, if_neg hq, if_pos hbr, hcs,
                  Bool.and_eq_true] at h
                obtain ⟨hc, hrec⟩ := h
                rcases pr with _ | ⟨d, pr'⟩
                · rw [List.getLast?_singleton] at hlast
                  injection hlast with hlast
                  rw [hlast] at hbr
                  exact absurd hbr (by decide)
                · rw [List.getLast?_cons_cons] at hlast
                  exact List.mem_cons_of_mem _ (ih s' (d :: pr') hrec hlast)
              · simp only [globGo, if_neg hstar, if_neg hq, if_pos hbr, hcs,
                  Bool.and_eq_true] at h
                obtain ⟨hc, hrec⟩ := h
                obtain ⟨pre, hpre⟩ := classSplit_suffix pr neg cls rest hcs
                rcases rest with _ | ⟨e, rest'⟩
                · rw [hpre] at hlast
                  rw [show (pc :: (pre ++ [']']) : List Char)
                        = (pc :: pre) ++ ']' :: [] from rfl] at hlast
                  rw [List.getLast?_append_cons, List.getLast?_singleton] at hlast
                  injection hlast with hlast
                  exact absurd hlast (by decide)
                · have hlast2 : (e :: rest').getLast? = some '/' := by
                    rw [hpre] at hlast
                    rw [show (pc :: (pre ++ ']' :: e :: rest') : List Char)
                          = (pc :: pre) ++ ']' :: e :: rest' from rfl] at hlast
                    rw [List.getLast?_append_cons] at hlast
                    rw [List.getLast?_cons_cons] at hlast
                    exact hlast
                  exact List.mem_cons_of_mem _ (ih s' (e :: rest') hrec hlast2)
            · simp only [globGo, if_neg hstar, if_neg hq, if_neg hbr,
                  Bool.and_eq_true, beq_iff_eq] at h
              obtain ⟨hc, hrec⟩ := h
              rcases pr with _ | ⟨d, pr'⟩
              · rw [List.getLast?_singleton] at hlast
                injection hlast with hlast
                rw [hc, hlast]
                exact List.mem_cons_self _ _
              · rw [List.getLast?_cons_cons] at hlast
                exact List.mem_cons_of_mem _ (ih s' (d :: pr') hrec hlast)

theorem globM_last_slash (s p : List Char) :
    globM s p = true → p.getLast? = some '/' → '/' ∈ s :=
  globGo_last_slash _ s p

theorem rstripSlash_eq_self (p : List Char) (h : p.getLast? ≠ some '/') :
    rstripSlash p = p := by
  unfold rstripSlash
  rcases hrev : p.reverse with _ | ⟨c, r⟩
  · have : p = [] := by
      have := congrArg List.reverse hrev
      simpa using this
    rw [this]; rfl
  · have hc : ¬ (c == '/') = true := by
      intro hcc
      apply h
      rw [← List.head?_reverse, hrev]
      simp only [List.head?_cons, Option.some.injEq]
      exact beq_iff_eq.mp hcc
    rw [List.dropWhile_cons, if_neg hc, ← hrev, List.reverse_reverse]

/-- For a slash-free string (such as a path segment), matching against
a pattern "as written" adds nothing beyond matching against the
pattern with its trailing slashes stripped. -/
theorem glob_asWritten_eq_clean (seg pat : List Char) (hseg : '/' ∉ seg) :
    (globM seg pat || globM seg (rstripSlash pat))
      = globM seg (rstripSlash pat) := by
  rcases hm : globM seg pat with _ | _
  · simp
  · by_cases hlast : pat.getLast? = some '/'
    · exact absurd (globM_last_slash seg pat hm hlast) hseg
    · rw [rstripSlash_eq_self pat hlast, hm]
      simp

/-! ## Configuration data model (config.py) -/

/-- `config.ProjectMapping`: a directory to sync, with optional
destination path, enabled flag, and glob pattern lists. -/
structure ProjectMapping where
  private_path : List Char
  public_path : Option (List Char) := none
  enabled : Bool := true
  exclude_patterns : List (List Char) := []
  include_patterns : List (List Char) := []
deriving DecidableEq, Repr

/-- `ProjectMapping.resolved_public_path`: Python
`self.public_path or self.private_path` — `None` and the empty string
both fall back to the private path. -/
def ProjectMapping.resolved_public_path (p : ProjectMapping) : List Char :=
  match p.public_path with
  | some q => if q.isEmpty then p.private_path else q
  | none => p.private_path

/-- Modelled from the spec: `FileMapping` is absent from the captured
`config.py` (only its import in `main.py` and its uses in `syncer.py`
appear), so it is reconstructed from the specification: a single-file
mapping "declares a source path ... and an optional destination path
(defaults to source path), an enabled flag, and optional
exclude/include glob pattern lists", with `resolved_public_path` being
"`public_path` if set, else `private_path`". -/
structure FileMapping where
  private_path : List Char
  public_path : Option (List Char) := none
  enabled : Bool := true
  exclude_patterns : List (List Char) := []
  include_patterns : List (List Char) := []
deriving DecidableEq, Repr

/-- Modelled from the spec: resolution of a file mapping's public
path, "pure and side-effect-free". -/
def FileMapping.resolved_public_path (f : FileMapping) : List Char :=
  f.public_path.getD f.private_path

/-- The slice of `config.SyncConfig` that the sync engine reads
(repository locations, remotes and behaviour flags live with the
external collaborators).  The source field `commit_prefix` is named
`commit_prefix_tag` here. -/
structure SyncConfig where
  projects : List ProjectMapping
  files : List FileMapping
  global_exclude_patterns : List (List Char)
  commit_prefix_tag : List Char
deriving DecidableEq, Repr

/-- `SyncConfig.get_enabled_projects`. -/
def SyncConfig.get_enabled_projects (c : SyncConfig) : List ProjectMapping :=
  c.projects.filter (fun p => p.enabled)

/-- Modelled from the spec: `SyncConfig.get_enabled_files` is called
by `syncer.py` but absent from the captured `config.py`; by symmetry
with `get_enabled_projects` and the spec's "enabled flag" it returns
the enabled file mappings. -/
def SyncConfig.get_enabled_files (c : SyncConfig) : List FileMapping :=
  c.files.filter (fun f => f.enabled)

/-! ## Path filter (`git_ops.should_include_file`) -/

/-- One global-exclude pattern test: the full path and every path
segment are matched against the pattern as written and with trailing
slashes stripped. -/
def globalExcludeHit (file_path : List Char) (file_parts : List (List Char))
    (pattern : List Char) : Bool :=
  let clean_pattern := rstripSlash pattern
  globM file_path pattern || globM file_path clean_pattern ||
    file_parts.any (fun part => globM part pattern || globM part clean_pattern)

/-- One project-exclude pattern test: the full path is matched against
the pattern as written and cleaned, but each segment only against the
cleaned pattern (as in the source). -/
def projectExcludeHit (file_path : List Char) (file_parts : List (List Char))
    (pattern : List Char) : Bool :=
  let clean_pattern := rstripSlash pattern
  globM file_path pattern || globM file_path clean_pattern ||
    file_parts.any (fun part => globM part clean_pattern)

/-- `git_ops.should_include_file(file_path, project, config)`: the
early-`return False` loops become `List.any` over the pattern lists;
the include list, when non-empty, must match the full path. -/
def should_include_file (file_path : List Char) (project : ProjectMapping)
    (config : SyncConfig) : Bool :=
  let file_parts := pathParts file_path
  if config.global_exclude_patterns.any
      (globalExcludeHit file_path file_parts) then false
  else if project.exclude_patterns.any
      (projectExcludeHit file_path file_parts) then false
  else if !project.include_patterns.isEmpty then
    project.include_patterns.any (fun pattern => globM file_path pattern)
  else true

/-! ## Change classifier (`git_ops.filter_commit_files`) -/

/-- `git_ops.FileChange`: one file's status within a commit. -/
structure FileChange where
  path : List Char
  change_type : List Char
  old_path : Option (List Char) := none
deriving DecidableEq, Repr

/-- `git_ops.CommitInfo`: immutable snapshot of one source commit.
Timestamps are unix seconds. -/
structure CommitInfo where
  hash : List Char
  short_hash : List Char
  message : List Char
  author_name : List Char
  author_email : List Char
  author_date : Int
  committer_name : List Char
  committer_email : List Char
  commit_date : Int
  files_changed : List FileChange
deriving DecidableEq, Repr

/-- The directory-mapping source prefix: `private_path.rstrip("/") + "/"`. -/
def projectPrefixOf (project : ProjectMapping) : List Char :=
  rstripSlash project.private_path ++ ['/']

/-- `git_ops.filter_commit_files(commit, project, config)`: keep the
changes under the project directory whose project-relative path passes
the filter. -/
def filter_commit_files (commit : CommitInfo) (project : ProjectMapping)
    (config : SyncConfig) : List FileChange :=
  commit.files_changed.filter (fun change =>
    startsWithL change.path (projectPrefixOf project) &&
      should_include_file (change.path.drop (projectPrefixOf project).length)
        project config)

/-! ## Provenance tracker (`GitRepository.get_last_synced_commit`)

The source scans up to the 100 most recent commit messages on the
current branch and applies
`re.search(r"synced_from:\s*([a-f0-9]\x7b40\x7d)", message)` to those
containing the commit prefix.  The regex engine's behaviour on this
pattern is: leftmost starting position wins; `\s*` is greedy and never
backtracks here because no whitespace character is a hex digit. -/

/-- Lowercase-hex character class `[a-f0-9]`. -/
def isHexLower (c : Char) : Bool :=
  ('0' ≤ c && c ≤ '9') || ('a' ≤ c && c ≤ 'f')

/-- The whitespace characters matched by `\s` that can occur in the
commit messages we model (the ASCII ones). -/
def isPySpace (c : Char) : Bool :=
  c == ' ' || c == '\t' || c == '\n' || c == '\r' ||
    c == '\x0b' || c == '\x0c'

/-- The literal `synced_from:`. -/
def syncedFromLit : List Char := "synced_from:".data

/-- Try to match `synced_from:\s*([a-f0-9]\x7b40\x7d)` at the head of
`cs`; on success return the captured 40 hex characters. -/
def matchSyncedAt (cs : List Char) : Option (List Char) :=
  if startsWithL cs syncedFromLit then
    let afterWs := (cs.drop syncedFromLit.length).dropWhile isPySpace
    let hex := afterWs.take 40
    if hex.length == 40 && hex.all isHexLower then some hex else none
  else none

/-- `re.search` of the trailer pattern: try each start position from
the left. -/
def searchSyncedFrom : List Char → Option (List Char)
  | [] => none
  | c :: rest =>
    match matchSyncedAt (c :: rest) with
    | some h => some h
    | none => searchSyncedFrom rest

/-- `GitRepository.get_last_synced_commit(commit_prefix)`, over the
destination branch's commit messages listed newest first: scan at most
100 messages; at the first one containing the prefix *and* a
recognizable trailer, return the extracted hash. -/
def get_last_synced_commit (messages : List (List Char))
    (commit_prefix_tag : List Char) : Option (List Char) :=
  (messages.take 100).findSome? (fun message =>
    if containsSub message commit_prefix_tag
    then searchSyncedFrom message
    else none)

/-! ## C1: the path filter -/

theorem globalExcludeHit_iff (P pat : List Char) :
    globalExcludeHit P (pathParts P) pat = true ↔
      (globM P pat = true ∨ globM P (rstripSlash pat) = true) ∨
        ∃ seg ∈ pathParts P,
          globM seg pat = true ∨ globM seg (rstripSlash pat) = true := by
  unfold globalExcludeHit
  simp only [Bool.or_eq_true, List.any_eq_true]

theorem projectExcludeHit_iff (P pat : List Char) :
    projectExcludeHit P (pathParts P) pat = true ↔
      (globM P pat = true ∨ globM P (rstripSlash pat) = true) ∨
        ∃ seg ∈ pathParts P,
          globM seg pat = true ∨ globM seg (rstripSlash pat) = true := by
  unfold projectExcludeHit
  simp only [Bool.or_eq_true, List.any_eq_true]
  constructor
  · rintro (h | ⟨seg, hseg, hm⟩)
    · exact Or.inl h
    · exact Or.inr ⟨seg, hseg, Or.inr hm⟩
  · rintro (h | ⟨seg, hseg, hm⟩)
    · exact Or.inl h
    · refine Or.inr ⟨seg, hseg, ?_⟩
      have hsf := pathParts_no_slash P seg hseg
      rcases hm with hm | hm
      · have : (globM seg pat || globM seg (rstripSlash pat)) = true := by
          rw [hm]; rfl
        rw [glob_asWritten_eq_clean seg pat hsf] at this
        exact this
      · exact hm

/-- C1: `should_include(P, M, G)` is true iff no global or
project-level exclude pattern hits `P` or one of its segments (each
pattern tested as written and with trailing slashes stripped), and the
include list, when declared, matches `P`.  In particular an exclusion
hit forces `false` regardless of include patterns. -/
theorem C1_should_include_file_iff (P : List Char) (M : ProjectMapping)
    (cfg : SyncConfig) (_hrel : P.head? ≠ some '/') :
    should_include_file P M cfg = true ↔
      ((∀ pat ∈ cfg.global_exclude_patterns ++ M.exclude_patterns,
          ¬ (globM P pat = true ∨ globM P (rstripSlash pat) = true) ∧
            ∀ seg ∈ pathParts P,
              ¬ (globM seg pat = true ∨ globM seg (rstripSlash pat) = true)) ∧
        (M.include_patterns = [] ∨
          ∃ pat ∈ M.include_patterns, globM P pat = true)) := by
  unfold should_include_file
  by_cases hG : cfg.global_exclude_patterns.any
      (globalExcludeHit P (pathParts P)) = true
  · rw [if_pos hG]
    refine iff_of_false (by simp) ?_
    rintro ⟨hnone, _⟩
    rcases List.any_eq_true.mp hG with ⟨pat, hpat, hhit⟩
    have hno := hnone pat (List.mem_append_left _ hpat)
    rcases (globalExcludeHit_iff P pat).mp hhit with h | ⟨seg, hseg, h⟩
    · exact hno.1 h
    · exact hno.2 seg hseg h
  · rw [if_neg hG]
    by_cases hE : M.exclude_patterns.any
        (projectExcludeHit P (pathParts P)) = true
    · rw [if_pos hE]
      refine iff_of_false (by simp) ?_
      rintro ⟨hnone, _⟩
      rcases List.any_eq_true.mp hE with ⟨pat, hpat, hhit⟩
      have hno := hnone pat (List.mem_append_right _ hpat)
      rcases (projectExcludeHit_iff P pat).mp hhit with h | ⟨seg, hseg, h⟩
      · exact hno.1 h
      · exact hno.2 seg hseg h
    · rw [if_neg hE]
      have hforall :
          ∀ pat ∈ cfg.global_exclude_patterns ++ M.exclude_patterns,
            ¬ (globM P pat = true ∨ globM P (rstripSlash pat) = true) ∧
              ∀ seg ∈ pathParts P,
                ¬ (globM seg pat = true ∨
                    globM seg (rstripSlash pat) = true) := by
        intro pat hpat
        rcases List.mem_append.mp hpat with hpat | hpat
        · have hfalse : globalExcludeHit P (pathParts P) pat = false := by
            rcases h : globalExcludeHit P (pathParts P) pat
            · rfl
            · exact absurd (List.any_eq_true.mpr ⟨pat, hpat, h⟩) hG
          constructor
          · intro hbad
            rw [(globalExcludeHit_iff P pat).mpr (Or.inl hbad)] at hfalse
            simp at hfalse
          · intro seg hseg hbad
            rw [(globalExcludeHit_iff P pat).mpr
              (Or.inr ⟨seg, hseg, hbad⟩)] at hfalse
            simp at hfalse
        · have hfalse : projectExcludeHit P (pathParts P) pat = false := by
            rcases h : projectExcludeHit P (pathParts P) pat
            · rfl
            · exact absurd (List.any_eq_true.mpr ⟨pat, hpat, h⟩) hE
          constructor
          · intro hbad
            rw [(projectExcludeHit_iff P pat).mpr (Or.inl hbad)] at hfalse
            simp at hfalse
          · intro seg hseg hbad
            rw [(projectExcludeHit_iff P pat).mpr
              (Or.inr ⟨seg, hseg, hbad⟩)] at hfalse
            simp at hfalse
      by_cases hInc : M.include_patterns.isEmpty = true
      · rw [if_neg (by rw [hInc]; simp)]
        exact iff_of_true rfl ⟨hforall, Or.inl (List.isEmpty_iff.mp hInc)⟩
      · rw [if_pos (by simp [Bool.not_eq_true] at hInc ⊢; simp [hInc])]
        constructor
        · intro hany
          refine ⟨hforall, Or.inr ?_⟩
          simpa [List.any_eq_true] using hany
        · rintro ⟨_, hinc | ⟨pat, hpat, hm⟩⟩
          · exact absurd (List.isEmpty_iff.mpr hinc) hInc
          · exact List.any_eq_true.mpr ⟨pat, hpat, hm⟩

/-- C1 witness: a normal source file under a mapping with one project
exclude pattern and the default-style global excludes is included. -/
theorem C1_should_include_file_iff_witness :
    should_include_file "src/main.py".data
      ⟨"pkg".data, none, true, ["*.secret".data], []⟩
      ⟨[], [], [".env".data, "node_modules/".data], "[sync]".data⟩ = true :=
  (C1_should_include_file_iff "src/main.py".data
      ⟨"pkg".data, none, true, ["*.secret".data], []⟩
      ⟨[], [], [".env".data, "node_modules/".data], "[sync]".data⟩
      (by decide)).mpr (by decide)

/-! ## C2: the provenance tracker -/

theorem matchSyncedAt_shape (cs h : List Char) :
    matchSyncedAt cs = some h →
      h.length = 40 ∧ h.all isHexLower = true := by
  intro hm
  simp only [matchSyncedAt] at hm
  split at hm
  · split at hm
    · rename_i hguard
      injection hm with hm
      subst hm
      have hand := (Bool.and_eq_true _ _).mp hguard
      exact ⟨by simpa using hand.1, by simpa using hand.2⟩
    · exact absurd hm (by simp)
  · exact absurd hm (by simp)

theorem searchSyncedFrom_shape (m h : List Char) :
    searchSyncedFrom m = some h →
      h.length = 40 ∧ h.all isHexLower = true := by
  induction m with
  | nil => intro hm; simp [searchSyncedFrom] at hm
  | cons c rest ih =>
    intro hm
    rw [searchSyncedFrom] at hm
    rcases hma : matchSyncedAt (c :: rest) with _ | h0
    · rw [hma] at hm
      exact ih hm
    · rw [hma] at hm
      injection hm with hm
      subst hm
      exact matchSyncedAt_shape _ _ hma

theorem findSome?_eq_some_iff {α β : Type} (f : α → Option β)
    (l : List α) (b : β) :
    l.findSome? f = some b ↔
      ∃ i, ∃ hi : i < l.length, f (l.get ⟨i, hi⟩) = some b ∧
        ∀ j, ∀ hj : j < l.length, j < i → f (l.get ⟨j, hj⟩) = none := by
  induction l with
  | nil => simp [List.findSome?]
  | cons a l ih =>
    constructor
    · intro hfs
      rcases hfa : f a with _ | b0
      · rw [show (a :: l).findSome? f = l.findSome? f by
            simp [List.findSome?, hfa]] at hfs
        obtain ⟨i, hi, hf, hmin⟩ := ih.mp hfs
        refine ⟨i + 1, by simpa using Nat.succ_lt_succ hi, hf, ?_⟩
        intro j hj hlt
        rcases j with _ | j
        · exact hfa
        · exact hmin j (by simpa using hj) (Nat.lt_of_succ_lt_succ hlt)
      · rw [show (a :: l).findSome? f = some b0 by
            simp [List.findSome?, hfa]] at hfs
        injection hfs with hfs
        subst hfs
        exact ⟨0, Nat.succ_pos _, hfa, fun j hj hlt =>
          absurd hlt (Nat.not_lt_zero j)⟩
    · rintro ⟨i, hi, hf, hmin⟩
      rcases i with _ | i
      · rw [show (a :: l).get ⟨0, hi⟩ = a from rfl] at hf
        simp [List.findSome?, hf]
      · have hfa : f a = none :=
          hmin 0 (Nat.succ_pos _) (Nat.succ_pos _)
        rw [show (a :: l).findSome? f = l.findSome? f by
            simp [List.findSome?, hfa]]
        refine ih.mpr ⟨i, Nat.lt_of_succ_lt_succ hi, hf, ?_⟩
        intro j hj hlt
        exact hmin (j + 1) (by simpa using Nat.succ_lt_succ hj)
          (Nat.succ_lt_succ hlt)

/-- C2 (amended): the resume-point scan looks at no more than the 100
newest commits; when it returns a hash, that hash is 40 lowercase hex
characters extracted (by the trailer regex) from the first
prefix-containing message with a recognizable trailer, all earlier
messages in the window being unrecognizable; it returns none exactly
when no message in the window both contains the prefix and has a
recognizable trailer.  (A trailer is recognizable when at least 40 —
not exactly 40 — lowercase hex characters follow it; the first 40 are
extracted.) -/
theorem C2_get_last_synced_commit_spec (msgs : List (List Char))
    (ptag hsh : List Char) :
    (get_last_synced_commit msgs ptag
        = get_last_synced_commit (msgs.take 100) ptag)
    ∧ (get_last_synced_commit msgs ptag = some hsh →
        hsh.length = 40 ∧ hsh.all isHexLower = true ∧
          ∃ i, ∃ hi : i < (msgs.take 100).length,
            (containsSub ((msgs.take 100).get ⟨i, hi⟩) ptag = true ∧
              searchSyncedFrom ((msgs.take 100).get ⟨i, hi⟩) = some hsh) ∧
            ∀ j, ∀ hj : j < (msgs.take 100).length, j < i →
              ¬(containsSub ((msgs.take 100).get ⟨j, hj⟩) ptag = true ∧
                (searchSyncedFrom ((msgs.take 100).get ⟨j, hj⟩)).isSome
                  = true))
    ∧ (get_last_synced_commit msgs ptag = none ↔
        ∀ m ∈ msgs.take 100, containsSub m ptag = true →
          searchSyncedFrom m = none) := by
  refine ⟨?_, ?_, ?_⟩
  · unfold get_last_synced_commit
    simp [List.take_take]
  · intro hsome
    unfold get_last_synced_commit at hsome
    obtain ⟨i, hi, hf, hmin⟩ := (findSome?_eq_some_iff _ _ _).mp hsome
    by_cases hcon :
        containsSub ((msgs.take 100).get ⟨i, hi⟩) ptag = true
    · rw [if_pos hcon] at hf
      obtain ⟨hlen, hhex⟩ := searchSyncedFrom_shape _ _ hf
      refine ⟨hlen, hhex, i, hi, ⟨hcon, hf⟩, ?_⟩
      intro j hj hlt ⟨hc, hs⟩
      have := hmin j hj hlt
      rw [if_pos hc] at this
      rw [this] at hs
      simp at hs
    · rw [if_neg hcon] at hf
      exact absurd hf (by simp)
  · unfold get_last_synced_commit
    rw [List.findSome?_eq_none_iff]
    constructor
    · intro hall m hm hc
      have := hall m hm
      rw [if_pos hc] at this
      exact this
    · intro hall m hm
      by_cases hc : containsSub m ptag = true
      · rw [if_pos hc]
        exact hall m hm hc
      · rw [if_neg hc]

/-- The message used for the C2 counterexample: contains the sync
prefix and a `synced_from:` trailer followed by 41 (not 40) lowercase
hex characters. -/
def c2MsgLong : List Char :=
  "[sync] update\n\nsynced_from: ".data ++ List.replicate 41 'a'

/-- Following the claim's words: does the message contain a
`synced_from:` trailer whose (maximal) lowercase-hex run has length
exactly 40?  Stated from the spec sentence "must be a 40-character
lowercase hex string to be recognized", for comparison with the
code's behaviour. -/
def specExactTrailer40 : List Char → Bool
  | [] => false
  | c :: rest =>
    (startsWithL (c :: rest) syncedFromLit &&
      ((((c :: rest).drop syncedFromLit.length).dropWhile
          isPySpace).takeWhile isHexLower).length == 40) ||
      specExactTrailer40 rest

/-- C2 counterexample: with a trailer carrying a 41-character hex run
— so not "exactly 40", hence by the claim not recognizable — the code
still recognizes it and returns the first 40 characters. -/
theorem C2_counterexample :
    get_last_synced_commit [c2MsgLong] "[sync]".data
        = some (List.replicate 40 'a')
      ∧ containsSub c2MsgLong "[sync]".data = true
      ∧ specExactTrailer40 c2MsgLong = false := by
  refine ⟨by decide, by decide, by decide⟩

/-- The well-formed 40-hex-character message used by the C2 witness. -/
def c2MsgGood : List Char :=
  "[sync] update\n\nsynced_from: ".data ++ List.replicate 40 'a'

/-- C2 witness: the spec theorem applied at a concrete message list
with a valid trailer. -/
theorem C2_get_last_synced_commit_spec_witness :
    (List.replicate 40 'a').length = 40 ∧
      (List.replicate 40 'a').all isHexLower = true :=
  let h := (C2_get_last_synced_commit_spec [c2MsgGood] "[sync]".data
    (List.replicate 40 'a')).2.1 (by decide)
  ⟨h.1, h.2.1⟩

/-! ## Destination repository state and the commit replicator
(`RepoSyncer._sync_single_commit`, `git_ops.sync_file_deletion`,
`GitRepository.commit`)

The destination clone is modelled as a working tree (an association
list from paths to byte contents), the set of paths staged via
`git add`, the paths removed from the index via
`git rm --cached`, and the list of commits created.  Every mutation of
the destination is additionally recorded in an ordered event trace.
Actual commit creation is an oracle `commitFn` returning either the
new hash or a git error message (the source inspects the message for
"nothing to commit"). -/

/-- A commit created in the destination repository.  `author` is
`none` when git falls back to the invoking user (the source passes
`--author` only when both name and email are non-empty / truthy). -/
structure CommitRecord where
  message : List Char
  author : Option (List Char × List Char)
  author_date : Option Int
  hash : List Char
deriving DecidableEq, Repr

/-- One observable mutation of the destination repository. -/
inductive SyncEvent where
  | write (path content : List Char)
  | unlink (path : List Char)
  | stage (paths : List (List Char))
  | rmCached (path : List Char)
  | committed (rcd : CommitRecord)
deriving DecidableEq, Repr

/-- The destination repository's mutable state. -/
structure DestState where
  workTree : List (List Char × List Char)
  staged : List (List Char)
  removedCached : List (List Char)
  commits : List CommitRecord
deriving DecidableEq, Repr

def wtLookup (wt : List (List Char × List Char)) (p : List Char) :
    Option (List Char) :=
  (wt.find? (fun e => e.1 == p)).map (fun e => e.2)

def wtErase (wt : List (List Char × List Char)) (p : List Char) :
    List (List Char × List Char) :=
  wt.filter (fun e => !(e.1 == p))

def wtInsert (wt : List (List Char × List Char)) (p v : List Char) :
    List (List Char × List Char) :=
  (p, v) :: wtErase wt p

/-- Result of the commit-creation oracle (`git commit`). -/
inductive CommitOutcome where
  | ok (h : List Char)
  | err (msg : List Char)
deriving DecidableEq, Repr

/-- Outcome of replicating one commit
(`_sync_single_commit` returns `str | None` or raises). -/
inductive ReplicateOutcome where
  | synced (h : List Char)
  | noChange
  | error (msg : List Char)
deriving DecidableEq, Repr

/-- `GitRepository.remove_file`: delete the working file if present,
then `git rm --cached --ignore-unmatch` (tolerated even when the file
is not tracked). -/
def remove_file (dest : DestState) (p : List Char) :
    DestState × List SyncEvent :=
  match wtLookup dest.workTree p with
  | some _ =>
    ({ dest with
        workTree := wtErase dest.workTree p,
        removedCached := dest.removedCached ++ [p] },
      [.unlink p, .rmCached p])
  | none =>
    ({ dest with removedCached := dest.removedCached ++ [p] },
      [.rmCached p])

/-- `git_ops.sync_file_deletion(dest_repo, file_path, project)`:
translate the private path and unlink the destination working file if
it exists; returns the translated path when a deletion happened.
Note there is no dry-run guard here. -/
def sync_file_deletion (dest : DestState) (file_path : List Char)
    (project : ProjectMapping) :
    DestState × List SyncEvent × Option (List Char) :=
  let private_prefix_str := rstripSlash project.private_path ++ ['/']
  if startsWithL file_path private_prefix_str then
    let rel_path := file_path.drop private_prefix_str.length
    let public_file := project.resolved_public_path ++ '/' :: rel_path
    match wtLookup dest.workTree public_file with
    | some _ =>
      ({ dest with workTree := wtErase dest.workTree public_file },
        [.unlink public_file], some public_file)
    | none => (dest, [], none)
  else (dest, [], none)

/-- Accumulator threaded through `_sync_single_commit`'s two loops:
destination state, event trace, `files_to_stage`, `files_to_remove`. -/
structure ReplicateAcc where
  st : DestState
  ev : List SyncEvent
  files_to_stage : List (List Char)
  files_to_remove : List (List Char)
deriving DecidableEq, Repr

/-- Body of the per-project loop of `_sync_single_commit` for one
relevant change: deletions go through `sync_file_deletion`
(unconditionally — even in dry-run); additions/modifications
materialize the source content at the translated path and mark it for
staging, but only when not in dry-run. -/
def processProjectChange (source : List Char → Option (List Char))
    (dry_run : Bool) (project : ProjectMapping)
    (acc : ReplicateAcc) (change : FileChange) : ReplicateAcc :=
  if change.change_type == "D".data then
    let r := sync_file_deletion acc.st change.path project
    match r.2.2 with
    | some deleted =>
      { acc with
          st := r.1, ev := acc.ev ++ r.2.1,
          files_to_remove := acc.files_to_remove ++ [deleted] }
    | none => { acc with st := r.1, ev := acc.ev ++ r.2.1 }
  else
    let private_prefix_str := rstripSlash project.private_path ++ ['/']
    let rel_path := change.path.drop private_prefix_str.length
    let dest_file_path := project.resolved_public_path ++ '/' :: rel_path
    if dry_run then acc
    else
      match source change.path with
      | some content =>
        { acc with
            st := { acc.st with
              workTree := wtInsert acc.st.workTree dest_file_path content },
            ev := acc.ev ++ [.write dest_file_path content],
            files_to_stage := acc.files_to_stage ++ [dest_file_path] }
      | none => acc

/-- The per-project loop: fold the relevant (filtered) changes. -/
def processProject (source : List Char → Option (List Char))
    (dry_run : Bool) (commit : CommitInfo) (cfg : SyncConfig)
    (acc : ReplicateAcc) (project : ProjectMapping) : ReplicateAcc :=
  (filter_commit_files commit project cfg).foldl
    (processProjectChange source dry_run project) acc

/-- Body of the per-file-mapping loop for one change of the commit:
relevant only on exact path equality; deletions are guarded by
existence (and, unlike the project loop, by dry-run);
additions/modifications materialize at the resolved public path. -/
def processFileChangeFor (source : List Char → Option (List Char))
    (dry_run : Bool) (fm : FileMapping)
    (acc : ReplicateAcc) (change : FileChange) : ReplicateAcc :=
  if change.path == fm.private_path then
    if change.change_type == "D".data then
      let dest_file_path := fm.resolved_public_path
      match wtLookup acc.st.workTree dest_file_path with
      | some _ =>
        if dry_run then
          { acc with
              files_to_remove := acc.files_to_remove ++ [dest_file_path] }
        else
          { acc with
              st := { acc.st with
                workTree := wtErase acc.st.workTree dest_file_path },
              ev := acc.ev ++ [.unlink dest_file_path],
              files_to_remove := acc.files_to_remove ++ [dest_file_path] }
      | none => acc
    else
      if dry_run then acc
      else
        match source change.path with
        | some content =>
          { acc with
              st := { acc.st with
                workTree := wtInsert acc.st.workTree
                  fm.resolved_public_path content },
              ev := acc.ev ++ [.write fm.resolved_public_path content],
              files_to_stage :=
                acc.files_to_stage ++ [fm.resolved_public_path] }
        | none => acc
  else acc

/-- The per-file-mapping loop: fold all of the commit's changes. -/
def processFileMapping (source : List Char → Option (List Char))
    (dry_run : Bool) (commit : CommitInfo)
    (acc : ReplicateAcc) (fm : FileMapping) : ReplicateAcc :=
  commit.files_changed.foldl (processFileChangeFor source dry_run fm) acc

/-- Phases 1 and 2 of `_sync_single_commit`: process every enabled
project mapping, then every enabled file mapping. -/
def collectChanges (cfg : SyncConfig) (commit : CommitInfo)
    (source : List Char → Option (List Char)) (dest0 : DestState)
    (dry_run : Bool) : ReplicateAcc :=
  cfg.get_enabled_files.foldl
    (processFileMapping source dry_run commit)
    (cfg.get_enabled_projects.foldl
      (processProject source dry_run commit cfg) ⟨dest0, [], [], []⟩)

/-- The `for file_path in files_to_remove` loop: `remove_file` on each
removed path (per-path failures tolerated). -/
def removeLoop : DestState × List SyncEvent → List (List Char) →
    DestState × List SyncEvent
  | p, [] => p
  | p, fp :: rest =>
    removeLoop ((remove_file p.1 fp).1, p.2 ++ (remove_file p.1 fp).2) rest

/-- The staging phase: `stage_files(files_to_stage)` (a no-op on an
empty list), then the removal loop. -/
def stagePhase (st : DestState) (fs fr : List (List Char)) :
    DestState × List SyncEvent :=
  removeLoop
    (if fs.isEmpty then (st, [])
     else ({ st with staged := st.staged ++ fs }, [.stage fs])) fr

/-- The destination commit message:
`f"{commit_prefix} {message}\n\nsynced_from: {hash}"`. -/
def mkCommitMessage (cfg : SyncConfig) (commit : CommitInfo) : List Char :=
  cfg.commit_prefix_tag ++ ' ' :: commit.message ++
    "\n\nsynced_from: ".data ++ commit.hash

/-- The `--author` argument of `GitRepository.commit`: passed only
when both name and email are truthy (non-empty). -/
def commitAuthorField (an ae : List Char) :
    Option (List Char × List Char) :=
  if an.isEmpty || ae.isEmpty then none else some (an, ae)

/-- The destination commit record that `git commit` creates for a
replicated commit with hash `h`. -/
def mkSyncRecord (cfg : SyncConfig) (commit : CommitInfo)
    (h : List Char) : CommitRecord :=
  { message := mkCommitMessage cfg commit,
    author := commitAuthorField commit.author_name commit.author_email,
    author_date := some commit.author_date,
    hash := h }

/-- The commit-creation step of `_sync_single_commit`: the (dead)
re-check of the two path lists, then `dest_repo.commit(...)` with
"nothing to commit" tolerated and any other failure propagated. -/
def commitStep (cfg : SyncConfig) (commit : CommitInfo)
    (commitFn : DestState → List Char → CommitOutcome)
    (acc : ReplicateAcc) (staged : DestState × List SyncEvent) :
    DestState × List SyncEvent × ReplicateOutcome :=
  if acc.files_to_stage.isEmpty && acc.files_to_remove.isEmpty then
    (staged.1, acc.ev ++ staged.2, .noChange)
  else
    match commitFn staged.1 (mkCommitMessage cfg commit) with
    | .ok h =>
      ({ staged.1 with
          commits := staged.1.commits ++ [mkSyncRecord cfg commit h] },
        acc.ev ++ staged.2 ++ [.committed (mkSyncRecord cfg commit h)],
        .synced h)
    | .err m =>
      if containsSub (toLowerL m) "nothing to commit".data then
        (staged.1, acc.ev ++ staged.2, .noChange)
      else
        (staged.1, acc.ev ++ staged.2, .error m)

/-- The tail of `_sync_single_commit` after the collection phase:
empty change set ⇒ "no relevant change"; dry-run ⇒ report and stop;
otherwise stage, remove, and commit. -/
def syncCommitPhase (cfg : SyncConfig) (commit : CommitInfo)
    (dry_run : Bool) (commitFn : DestState → List Char → CommitOutcome)
    (acc : ReplicateAcc) : DestState × List SyncEvent × ReplicateOutcome :=
  if acc.files_to_stage.isEmpty && acc.files_to_remove.isEmpty then
    (acc.st, acc.ev, .noChange)
  else if dry_run then
    (acc.st, acc.ev, .synced "dry-run".data)
  else
    commitStep cfg commit commitFn acc
      (stagePhase acc.st acc.files_to_stage acc.files_to_remove)

/-- `RepoSyncer._sync_single_commit(commit, direction, source_repo,
dest_repo, dry_run)`.  `source` is `get_file_content_at_commit`
specialized to this commit's hash; `commitFn` is the `git commit`
oracle.  Returns the final destination state, the mutation trace, and
the outcome. -/
def sync_single_commit (cfg : SyncConfig) (commit : CommitInfo)
    (source : List Char → Option (List Char)) (dest0 : DestState)
    (dry_run : Bool)
    (commitFn : DestState → List Char → CommitOutcome) :
    DestState × List SyncEvent × ReplicateOutcome :=
  syncCommitPhase cfg commit dry_run commitFn
    (collectChanges cfg commit source dest0 dry_run)

/-! ## Sync orchestrator (`RepoSyncer.sync`) -/

/-- `syncer.SyncResult`; `commit_mappings` is an insertion-ordered
dict from source hash to destination hash. -/
structure SyncResult where
  success : Bool
  commits_synced : Nat
  files_changed : Nat
  errors : List (List Char)
  warnings : List (List Char)
  commit_mappings : List (List Char × List Char)
deriving DecidableEq, Repr

/-- Python dict insertion: overwrite in place if the key exists, else
append. -/
def dictInsert (m : List (List Char × List Char)) (k v : List Char) :
    List (List Char × List Char) :=
  if m.any (fun e => e.1 == k) then
    m.map (fun e => if e.1 == k then (k, v) else e)
  else m ++ [(k, v)]

/-- `f"Error syncing {commit.short_hash}: {e}"`. -/
def errFmt (c : CommitInfo) (m : List Char) : List Char :=
  "Error syncing ".data ++ c.short_hash ++ ": ".data ++ m

/-- The per-commit loop of `RepoSyncer.sync`: on a synced hash record
the mapping and bump the counters; on no-change continue; on an
exception record the error, mark failure and stop (fail-fast). -/
def syncLoop (cfg : SyncConfig)
    (source : List Char → List Char → Option (List Char))
    (commitFn : DestState → List Char → CommitOutcome) (dry_run : Bool) :
    List CommitInfo → DestState → SyncResult → DestState × SyncResult
  | [], st, res => (st, res)
  | c :: rest, st, res =>
    match sync_single_commit cfg c (source c.hash) st dry_run commitFn with
    | (st2, _, .synced h) =>
      syncLoop cfg source commitFn dry_run rest st2
        { res with
            commit_mappings := dictInsert res.commit_mappings c.hash h,
            commits_synced := res.commits_synced + 1,
            files_changed := res.files_changed + c.files_changed.length }
    | (st2, _, .noChange) => syncLoop cfg source commitFn dry_run rest st2 res
    | (st2, _, .error m) =>
      (st2, { res with
                errors := res.errors ++ [errFmt c m],
                success := false })

/-- The `SyncResult` that `RepoSyncer.sync` starts from. -/
def initSyncResult : SyncResult := ⟨true, 0, 0, [], [], []⟩

/-- `RepoSyncer.sync` restricted to its replication loop (repository
setup, console rendering and the auto-push step are external
collaborators; push failures only append warnings and touch no other
field). -/
def sync_run (cfg : SyncConfig) (pending : List CommitInfo)
    (source : List Char → List Char → Option (List Char))
    (commitFn : DestState → List Char → CommitOutcome)
    (dest0 : DestState) (dry_run : Bool) : DestState × SyncResult :=
  syncLoop cfg source commitFn dry_run pending dest0 initSyncResult


/-! ## Structural lemmas about the replicator -/

/-- A generic foldl preservation principle for a projection left
untouched by every step. -/
theorem foldl_preserve {α β γ : Type} (f : α → β → α) (P : α → γ)
    (hf : ∀ a b, P (f a b) = P a) :
    ∀ (l : List β) (a : α), P (l.foldl f a) = P a := by
  intro l
  induction l with
  | nil => intro a; rfl
  | cons b l ih => intro a; rw [List.foldl_cons, ih, hf]

theorem remove_file_commits (st : DestState) (p : List Char) :
    (remove_file st p).1.commits = st.commits := by
  unfold remove_file
  rcases wtLookup st.workTree p with _ | v <;> rfl

theorem removeLoop_commits (fr : List (List Char)) :
    ∀ p : DestState × List SyncEvent,
      (removeLoop p fr).1.commits = p.1.commits := by
  induction fr with
  | nil => intro p; rfl
  | cons fp rest ih =>
    intro p
    rw [removeLoop, ih, remove_file_commits]

theorem stagePhase_commits (st : DestState) (fs fr : List (List Char)) :
    (stagePhase st fs fr).1.commits = st.commits := by
  unfold stagePhase
  rw [removeLoop_commits]
  by_cases hfs : fs.isEmpty
  · rw [if_pos hfs]
  · rw [if_neg hfs]

theorem sync_file_deletion_commits (st : DestState) (fp : List Char)
    (project : ProjectMapping) :
    (sync_file_deletion st fp project).1.commits = st.commits := by
  unfold sync_file_deletion
  by_cases hp : startsWithL fp (rstripSlash project.private_path ++ ['/']) = true
  · simp only [if_pos hp]
    rcases wtLookup st.workTree (project.resolved_public_path ++ '/' ::
      fp.drop (rstripSlash project.private_path ++ ['/']).length) with _ | v <;> rfl
  · simp only [if_neg hp]

theorem processProjectChange_commits (source : List Char → Option (List Char))
    (dry : Bool) (project : ProjectMapping) (acc : ReplicateAcc)
    (ch : FileChange) :
    (processProjectChange source dry project acc ch).st.commits
      = acc.st.commits := by
  unfold processProjectChange
  by_cases hD : (ch.change_type == "D".data) = true
  · simp only [if_pos hD]
    rcases hdel : (sync_file_deletion acc.st ch.path project).2.2 with _ | d
    · simp only
      exact sync_file_deletion_commits acc.st ch.path project
    · simp only
      exact sync_file_deletion_commits acc.st ch.path project
  · simp only [if_neg hD]
    by_cases hdry : dry = true
    · simp only [if_pos hdry]
    · simp only [if_neg hdry]
      rcases source ch.path with _ | content <;> rfl

theorem processFileChangeFor_commits (source : List Char → Option (List Char))
    (dry : Bool) (fm : FileMapping) (acc : ReplicateAcc) (ch : FileChange) :
    (processFileChangeFor source dry fm acc ch).st.commits
      = acc.st.commits := by
  unfold processFileChangeFor
  by_cases hpath : (ch.path == fm.private_path) = true
  · simp only [if_pos hpath]
    by_cases hD : (ch.change_type == "D".data) = true
    · simp only [if_pos hD]
      rcases wtLookup acc.st.workTree fm.resolved_public_path with _ | v
      · rfl
      · by_cases hdry : dry = true
        · simp only [if_pos hdry]
        · simp only [if_neg hdry]
    · simp only [if_neg hD]
      by_cases hdry : dry = true
      · simp only [if_pos hdry]
      · simp only [if_neg hdry]
        rcases source ch.path with _ | content <;> rfl
  · simp only [if_neg hpath]

theorem processProject_commits (source : List Char → Option (List Char))
    (dry : Bool) (commit : CommitInfo) (cfg : SyncConfig)
    (acc : ReplicateAcc) (project : ProjectMapping) :
    (processProject source dry commit cfg acc project).st.commits
      = acc.st.commits := by
  unfold processProject
  exact foldl_preserve _ (fun a => a.st.commits)
    (fun a ch => processProjectChange_commits source dry project a ch)
    (filter_commit_files commit project cfg) acc

theorem processFileMapping_commits (source : List Char → Option (List Char))
    (dry : Bool) (commit : CommitInfo) (acc : ReplicateAcc)
    (fm : FileMapping) :
    (processFileMapping source dry commit acc fm).st.commits
      = acc.st.commits := by
  unfold processFileMapping
  exact foldl_preserve _ (fun a => a.st.commits)
    (fun a ch => processFileChangeFor_commits source dry fm a ch)
    commit.files_changed acc

theorem collectChanges_commits (cfg : SyncConfig) (commit : CommitInfo)
    (source : List Char → Option (List Char)) (dest0 : DestState)
    (dry : Bool) :
    (collectChanges cfg commit source dest0 dry).st.commits
      = dest0.commits := by
  unfold collectChanges
  rw [foldl_preserve (processFileMapping source dry commit)
    (fun a => a.st.commits)
    (fun a fm => processFileMapping_commits source dry commit a fm)]
  rw [foldl_preserve (processProject source dry commit cfg)
    (fun a => a.st.commits)
    (fun a project => processProject_commits source dry commit cfg a project)]

/-! ## C3: dry-run is not mutation-free (code bug) -/

/-- The failing input for C3: one enabled project mapping `pkg`, a
commit that deletes `pkg/a.txt`, and a destination whose working tree
contains `pkg/a.txt`. -/
def c3Cfg : SyncConfig :=
  ⟨[⟨"pkg".data, none, true, [], []⟩], [], [], "[sync]".data⟩

def c3Commit : CommitInfo :=
  ⟨"1111111111111111111111111111111111111111".data, "11111111".data,
    "remove a".data, "Ann".data, "ann@example.com".data, 1700000000,
    "Ann".data, "ann@example.com".data, 1700000000,
    [⟨"pkg/a.txt".data, "D".data, none⟩]⟩

def c3Dest : DestState :=
  ⟨[("pkg/a.txt".data, "hello".data)], [], [], []⟩

/-- C3 (code bug): with `dry_run` set the replicator still deletes the
destination working-tree file `pkg/a.txt` — `sync_file_deletion` has
no dry-run guard — so "performs no mutation whatsoever" fails.  The
run emits an `unlink` event and leaves the working tree empty where it
previously contained the file. -/
theorem C3_dry_run_deletes :
    sync_single_commit c3Cfg c3Commit (fun _ => none) c3Dest true
        (fun _ _ => .ok "2222222222222222222222222222222222222222".data)
      = (⟨[], [], [], []⟩, [.unlink "pkg/a.txt".data],
          .synced "dry-run".data)
      ∧ c3Dest.workTree ≠ [] := by
  exact ⟨by decide, by decide⟩

/-! ## C4: destination commit message and authorship -/

/-- C4: when a commit is actually replicated (`dry_run = false` and
the outcome carries a destination hash), the destination gains exactly
one commit whose message is
`"<commit_prefix> <original message>\n\nsynced_from: <source hash>"`
and which carries the original author name, email and authored
timestamp (non-empty name and email, as git guarantees for real
commits, make the `--author` argument be passed). -/
theorem C4_commit_message_and_author (cfg : SyncConfig)
    (commit : CommitInfo) (source : List Char → Option (List Char))
    (dest0 : DestState) (commitFn : DestState → List Char → CommitOutcome)
    (st2 : DestState) (ev : List SyncEvent) (h : List Char)
    (hname : commit.author_name ≠ []) (hemail : commit.author_email ≠ [])
    (hrun : sync_single_commit cfg commit source dest0 false commitFn
      = (st2, ev, .synced h)) :
    st2.commits = dest0.commits ++
      [{ message := cfg.commit_prefix_tag ++ ' ' :: commit.message ++
           "\n\nsynced_from: ".data ++ commit.hash,
         author := some (commit.author_name, commit.author_email),
         author_date := some commit.author_date,
         hash := h }] := by
  have hauthor : commitAuthorField commit.author_name commit.author_email
      = some (commit.author_name, commit.author_email) := by
    unfold commitAuthorField
    rw [if_neg]
    simp only [Bool.or_eq_true, List.isEmpty_iff]
    rintro (hg | hg)
    · exact hname hg
    · exact hemail hg
  unfold sync_single_commit syncCommitPhase at hrun
  split at hrun
  · simp only [Prod.mk.injEq] at hrun
    exact absurd hrun.2.2 (by simp)
  · rw [if_neg (by simp)] at hrun
    unfold commitStep at hrun
    split at hrun
    · simp only [Prod.mk.injEq] at hrun
      exact absurd hrun.2.2 (by simp)
    · split at hrun
      · rename_i h0 hok
        simp only [Prod.mk.injEq] at hrun
        obtain ⟨hst, _, hout⟩ := hrun
        injection hout with hout
        subst hout
        rw [← hst]
        simp only [mkSyncRecord, mkCommitMessage, hauthor]
        rw [stagePhase_commits, collectChanges_commits]
      · split at hrun
        · simp only [Prod.mk.injEq] at hrun
          exact absurd hrun.2.2 (by simp)
        · simp only [Prod.mk.injEq] at hrun
          exact absurd hrun.2.2 (by simp)


/-! ## Accumulator extension: the collection loops only append -/

/-- `b` extends `a`: the event trace and both path lists of `b` are
obtained from those of `a` by appending. -/
def accExt (a b : ReplicateAcc) : Prop :=
  (∃ t, b.ev = a.ev ++ t) ∧
    (∃ t, b.files_to_stage = a.files_to_stage ++ t) ∧
    (∃ t, b.files_to_remove = a.files_to_remove ++ t)

theorem accExt_refl (a : ReplicateAcc) : accExt a a :=
  ⟨⟨[], by simp⟩, ⟨[], by simp⟩, ⟨[], by simp⟩⟩

theorem accExt_trans {a b c : ReplicateAcc} (h1 : accExt a b)
    (h2 : accExt b c) : accExt a c := by
  obtain ⟨⟨t1, e1⟩, ⟨t2, e2⟩, ⟨t3, e3⟩⟩ := h1
  obtain ⟨⟨u1, f1⟩, ⟨u2, f2⟩, ⟨u3, f3⟩⟩ := h2
  exact ⟨⟨t1 ++ u1, by rw [f1, e1, List.append_assoc]⟩,
    ⟨t2 ++ u2, by rw [f2, e2, List.append_assoc]⟩,
    ⟨t3 ++ u3, by rw [f3, e3, List.append_assoc]⟩⟩

theorem accExt_ev_mem {a b : ReplicateAcc} {x : SyncEvent}
    (h : accExt a b) (hx : x ∈ a.ev) : x ∈ b.ev := by
  obtain ⟨⟨t, ht⟩, _, _⟩ := h
  rw [ht]
  exact List.mem_append_left _ hx

theorem accExt_fs_mem {a b : ReplicateAcc} {x : List Char}
    (h : accExt a b) (hx : x ∈ a.files_to_stage) :
    x ∈ b.files_to_stage := by
  obtain ⟨_, ⟨t, ht⟩, _⟩ := h
  rw [ht]
  exact List.mem_append_left _ hx

theorem processProjectChange_ext (src : List Char → Option (List Char))
    (dry : Bool) (proj : ProjectMapping) (acc : ReplicateAcc)
    (ch : FileChange) :
    accExt acc (processProjectChange src dry proj acc ch) := by
  unfold processProjectChange
  by_cases hD : (ch.change_type == "D".data) = true
  · rw [if_pos hD]
    simp only
    rcases hdel : (sync_file_deletion acc.st ch.path proj).2.2 with _ | d
    · exact ⟨⟨_, rfl⟩, ⟨[], by simp⟩, ⟨[], by simp⟩⟩
    · exact ⟨⟨_, rfl⟩, ⟨[], by simp⟩, ⟨_, rfl⟩⟩
  · rw [if_neg hD]
    by_cases hdry : dry = true
    · rw [if_pos hdry]
      exact accExt_refl acc
    · rw [if_neg hdry]
      rcases src ch.path with _ | content
      · exact accExt_refl acc
      · exact ⟨⟨_, rfl⟩, ⟨_, rfl⟩, ⟨[], by simp⟩⟩

theorem processFileChangeFor_ext (src : List Char → Option (List Char))
    (dry : Bool) (fm : FileMapping) (acc : ReplicateAcc)
    (ch : FileChange) :
    accExt acc (processFileChangeFor src dry fm acc ch) := by
  unfold processFileChangeFor
  by_cases hpath : (ch.path == fm.private_path) = true
  · rw [if_pos hpath]
    by_cases hD : (ch.change_type == "D".data) = true
    · rw [if_pos hD]
      simp only
      rcases hwt : wtLookup acc.st.workTree fm.resolved_public_path with _ | v
      · exact accExt_refl acc
      · by_cases hdry : dry = true
        · rw [if_pos hdry]
          exact ⟨⟨[], by simp⟩, ⟨[], by simp⟩, ⟨_, rfl⟩⟩
        · rw [if_neg hdry]
          exact ⟨⟨_, rfl⟩, ⟨[], by simp⟩, ⟨_, rfl⟩⟩
    · rw [if_neg hD]
      by_cases hdry : dry = true
      · rw [if_pos hdry]
        exact accExt_refl acc
      · rw [if_neg hdry]
        simp only
        rcases hsrc : src ch.path with _ | content
        · exact accExt_refl acc
        · exact ⟨⟨_, rfl⟩, ⟨_, rfl⟩, ⟨[], by simp⟩⟩
  · rw [if_neg hpath]
    exact accExt_refl acc

theorem foldl_accExt {β : Type} (f : ReplicateAcc → β → ReplicateAcc)
    (hf : ∀ a b, accExt a (f a b)) :
    ∀ (l : List β) (a : ReplicateAcc), accExt a (l.foldl f a) := by
  intro l
  induction l with
  | nil => intro a; exact accExt_refl a
  | cons b l ih =>
    intro a
    rw [List.foldl_cons]
    exact accExt_trans (hf a b) (ih (f a b))

theorem processProject_ext (src : List Char → Option (List Char))
    (dry : Bool) (commit : CommitInfo) (cfg : SyncConfig)
    (acc : ReplicateAcc) (proj : ProjectMapping) :
    accExt acc (processProject src dry commit cfg acc proj) :=
  foldl_accExt _ (fun a ch => processProjectChange_ext src dry proj a ch)
    (filter_commit_files commit proj cfg) acc

theorem processFileMapping_ext (src : List Char → Option (List Char))
    (dry : Bool) (commit : CommitInfo) (acc : ReplicateAcc)
    (fm : FileMapping) :
    accExt acc (processFileMapping src dry commit acc fm) :=
  foldl_accExt _ (fun a ch => processFileChangeFor_ext src dry fm a ch)
    commit.files_changed acc

/-- The translated destination path of a directory-mapping change:
`resolved_public_path + "/" + (path relative to the source prefix)`. -/
def destPathOf (proj : ProjectMapping) (ch : FileChange) : List Char :=
  proj.resolved_public_path ++ '/' ::
    ch.path.drop (projectPrefixOf proj).length

theorem processProjectChange_adds (src : List Char → Option (List Char))
    (proj : ProjectMapping) (acc : ReplicateAcc) (ch : FileChange)
    (content : List Char) (hD : ch.change_type ≠ "D".data)
    (hsrc : src ch.path = some content) :
    (processProjectChange src false proj acc ch).ev
        = acc.ev ++ [.write (destPathOf proj ch) content] ∧
      (processProjectChange src false proj acc ch).files_to_stage
        = acc.files_to_stage ++ [destPathOf proj ch] := by
  unfold processProjectChange
  rw [if_neg (by simpa using hD)]
  rw [if_neg (by simp)]
  rw [hsrc]
  exact ⟨rfl, rfl⟩

theorem processFileChangeFor_adds (src : List Char → Option (List Char))
    (fm : FileMapping) (acc : ReplicateAcc) (ch : FileChange)
    (content : List Char) (hpath : ch.path = fm.private_path)
    (hD : ch.change_type ≠ "D".data) (hsrc : src ch.path = some content) :
    (processFileChangeFor src false fm acc ch).ev
        = acc.ev ++ [.write fm.resolved_public_path content] ∧
      (processFileChangeFor src false fm acc ch).files_to_stage
        = acc.files_to_stage ++ [fm.resolved_public_path] := by
  unfold processFileChangeFor
  rw [if_pos (by simpa using hpath)]
  rw [if_neg (by simpa using hD)]
  rw [if_neg (by simp)]
  rw [hsrc]
  exact ⟨rfl, rfl⟩

theorem removeLoop_snd (fr : List (List Char)) :
    ∀ p : DestState × List SyncEvent,
      ∃ t, (removeLoop p fr).2 = p.2 ++ t := by
  induction fr with
  | nil => intro p; exact ⟨[], by simp [removeLoop]⟩
  | cons fp rest ih =>
    intro p
    rw [removeLoop]
    obtain ⟨t, ht⟩ := ih ((remove_file p.1 fp).1, p.2 ++ (remove_file p.1 fp).2)
    exact ⟨(remove_file p.1 fp).2 ++ t, by rw [ht]; simp⟩

theorem stagePhase_stage_event (st : DestState) (fs fr : List (List Char))
    (hfs : fs ≠ []) :
    ∃ t, (stagePhase st fs fr).2 = .stage fs :: t := by
  unfold stagePhase
  rw [if_neg (by simpa [List.isEmpty_iff] using hfs)]
  obtain ⟨t, ht⟩ :=
    removeLoop_snd fr ({ st with staged := st.staged ++ fs }, [.stage fs])
  exact ⟨t, by rw [ht]; rfl⟩

theorem commitStep_ev (cfg : SyncConfig) (commit : CommitInfo)
    (commitFn : DestState → List Char → CommitOutcome)
    (acc : ReplicateAcc) (staged : DestState × List SyncEvent) :
    ∃ t, (commitStep cfg commit commitFn acc staged).2.1
      = acc.ev ++ staged.2 ++ t := by
  unfold commitStep
  by_cases hempty : (acc.files_to_stage.isEmpty
      && acc.files_to_remove.isEmpty) = true
  · rw [if_pos hempty]
    exact ⟨[], by simp⟩
  · rw [if_neg hempty]
    rcases hcf : commitFn staged.1 (mkCommitMessage cfg commit) with h | m
    · exact ⟨[.committed (mkSyncRecord cfg commit h)], rfl⟩
    · simp only
      by_cases hntc : containsSub (toLowerL m) "nothing to commit".data = true
      · rw [if_pos hntc]
        exact ⟨[], by simp⟩
      · rw [if_neg hntc]
        exact ⟨[], by simp⟩


theorem collectChanges_project_write (cfg : SyncConfig)
    (commit : CommitInfo) (src : List Char → Option (List Char))
    (st0 : DestState) (proj : ProjectMapping) (ch : FileChange)
    (content : List Char)
    (hproj : proj ∈ cfg.get_enabled_projects)
    (hch : ch ∈ filter_commit_files commit proj cfg)
    (hD : ch.change_type ≠ "D".data)
    (hsrc : src ch.path = some content) :
    SyncEvent.write (destPathOf proj ch) content
        ∈ (collectChanges cfg commit src st0 false).ev ∧
      destPathOf proj ch
        ∈ (collectChanges cfg commit src st0 false).files_to_stage := by
  obtain ⟨l1, l2, hsplit⟩ := List.mem_iff_append.mp hproj
  unfold collectChanges
  rw [hsplit, List.foldl_append, List.foldl_cons]
  have hkey :
      SyncEvent.write (destPathOf proj ch) content
          ∈ (processProject src false commit cfg
              (l1.foldl (processProject src false commit cfg)
                ⟨st0, [], [], []⟩) proj).ev ∧
        destPathOf proj ch
          ∈ (processProject src false commit cfg
              (l1.foldl (processProject src false commit cfg)
                ⟨st0, [], [], []⟩) proj).files_to_stage := by
    obtain ⟨m1, m2, hsplit2⟩ := List.mem_iff_append.mp hch
    unfold processProject
    rw [hsplit2, List.foldl_append, List.foldl_cons]
    have hadds := processProjectChange_adds src proj
      (m1.foldl (processProjectChange src false proj)
        (l1.foldl (processProject src false commit cfg) ⟨st0, [], [], []⟩))
      ch content hD hsrc
    have hext := foldl_accExt (processProjectChange src false proj)
      (fun a b => processProjectChange_ext src false proj a b) m2
      (processProjectChange src false proj
        (m1.foldl (processProjectChange src false proj)
          (l1.foldl (processProject src false commit cfg) ⟨st0, [], [], []⟩))
        ch)
    constructor
    · exact accExt_ev_mem hext
        (by rw [hadds.1]; exact List.mem_append_right _ (by simp))
    · exact accExt_fs_mem hext
        (by rw [hadds.2]; exact List.mem_append_right _ (by simp))
  have hext2 := accExt_trans
    (foldl_accExt (processProject src false commit cfg)
      (fun a b => processProject_ext src false commit cfg a b) l2
      (processProject src false commit cfg
        (l1.foldl (processProject src false commit cfg) ⟨st0, [], [], []⟩)
        proj))
    (foldl_accExt (processFileMapping src false commit)
      (fun a b => processFileMapping_ext src false commit a b)
      cfg.get_enabled_files
      (l2.foldl (processProject src false commit cfg)
        (processProject src false commit cfg
          (l1.foldl (processProject src false commit cfg) ⟨st0, [], [], []⟩)
          proj)))
  exact ⟨accExt_ev_mem hext2 hkey.1, accExt_fs_mem hext2 hkey.2⟩

theorem processFileMapping_write (src : List Char → Option (List Char))
    (commit : CommitInfo) (acc : ReplicateAcc) (fm : FileMapping)
    (ch : FileChange) (content : List Char)
    (hch : ch ∈ commit.files_changed)
    (hpath : ch.path = fm.private_path)
    (hD : ch.change_type ≠ "D".data)
    (hsrc : src ch.path = some content) :
    SyncEvent.write fm.resolved_public_path content
        ∈ (processFileMapping src false commit acc fm).ev ∧
      fm.resolved_public_path
        ∈ (processFileMapping src false commit acc fm).files_to_stage := by
  obtain ⟨m1, m2, hsplit2⟩ := List.mem_iff_append.mp hch
  unfold processFileMapping
  rw [hsplit2, List.foldl_append, List.foldl_cons]
  have hadds := processFileChangeFor_adds src fm
    (m1.foldl (processFileChangeFor src false fm) acc)
    ch content hpath hD hsrc
  have hext := foldl_accExt (processFileChangeFor src false fm)
    (fun a b => processFileChangeFor_ext src false fm a b) m2
    (processFileChangeFor src false fm
      (m1.foldl (processFileChangeFor src false fm) acc) ch)
  constructor
  · exact accExt_ev_mem hext
      (by rw [hadds.1]; exact List.mem_append_right _ (by simp))
  · exact accExt_fs_mem hext
      (by rw [hadds.2]; exact List.mem_append_right _ (by simp))

theorem collectChanges_file_write (cfg : SyncConfig)
    (commit : CommitInfo) (src : List Char → Option (List Char))
    (st0 : DestState) (fm : FileMapping) (ch : FileChange)
    (content : List Char)
    (hfm : fm ∈ cfg.get_enabled_files)
    (hch : ch ∈ commit.files_changed)
    (hpath : ch.path = fm.private_path)
    (hD : ch.change_type ≠ "D".data)
    (hsrc : src ch.path = some content) :
    SyncEvent.write fm.resolved_public_path content
        ∈ (collectChanges cfg commit src st0 false).ev ∧
      fm.resolved_public_path
        ∈ (collectChanges cfg commit src st0 false).files_to_stage := by
  obtain ⟨l1, l2, hsplit⟩ := List.mem_iff_append.mp hfm
  unfold collectChanges
  rw [hsplit, List.foldl_append, List.foldl_cons]
  have hkey := processFileMapping_write src commit
    (l1.foldl (processFileMapping src false commit)
      (cfg.get_enabled_projects.foldl
        (processProject src false commit cfg) ⟨st0, [], [], []⟩))
    fm ch content hch hpath hD hsrc
  have hext2 := foldl_accExt (processFileMapping src false commit)
    (fun a b => processFileMapping_ext src false commit a b) l2
    (processFileMapping src false commit
      (l1.foldl (processFileMapping src false commit)
        (cfg.get_enabled_projects.foldl
          (processProject src false commit cfg) ⟨st0, [], [], []⟩))
      fm)
  exact ⟨accExt_ev_mem hext2 hkey.1, accExt_fs_mem hext2 hkey.2⟩

theorem syncCommitPhase_ev (cfg : SyncConfig) (commit : CommitInfo)
    (dry : Bool) (commitFn : DestState → List Char → CommitOutcome)
    (acc : ReplicateAcc) :
    ∃ t, (syncCommitPhase cfg commit dry commitFn acc).2.1
      = acc.ev ++ t := by
  unfold syncCommitPhase
  by_cases hempty : (acc.files_to_stage.isEmpty
      && acc.files_to_remove.isEmpty) = true
  · rw [if_pos hempty]
    exact ⟨[], by simp⟩
  · rw [if_neg hempty]
    by_cases hdry : dry = true
    · rw [if_pos hdry]
      exact ⟨[], by simp⟩
    · rw [if_neg hdry]
      obtain ⟨t, ht⟩ := commitStep_ev cfg commit commitFn acc
        (stagePhase acc.st acc.files_to_stage acc.files_to_remove)
      exact ⟨(stagePhase acc.st acc.files_to_stage
        acc.files_to_remove).2 ++ t, by rw [ht, List.append_assoc]⟩

theorem sync_single_commit_stage_event (cfg : SyncConfig)
    (commit : CommitInfo) (src : List Char → Option (List Char))
    (st0 : DestState) (commitFn : DestState → List Char → CommitOutcome)
    (hfs : (collectChanges cfg commit src st0 false).files_to_stage ≠ []) :
    SyncEvent.stage (collectChanges cfg commit src st0 false).files_to_stage
      ∈ (sync_single_commit cfg commit src st0 false commitFn).2.1 := by
  unfold sync_single_commit syncCommitPhase
  rw [if_neg (by simp [List.isEmpty_iff, hfs])]
  rw [if_neg (by simp)]
  obtain ⟨t, ht⟩ := commitStep_ev cfg commit commitFn
    (collectChanges cfg commit src st0 false)
    (stagePhase (collectChanges cfg commit src st0 false).st
      (collectChanges cfg commit src st0 false).files_to_stage
      (collectChanges cfg commit src st0 false).files_to_remove)
  rw [ht]
  obtain ⟨u, hu⟩ := stagePhase_stage_event
    (collectChanges cfg commit src st0 false).st
    (collectChanges cfg commit src st0 false).files_to_stage
    (collectChanges cfg commit src st0 false).files_to_remove hfs
  rw [hu]
  exact List.mem_append_left _ (List.mem_append_right _ (by simp))

theorem sync_single_commit_ev_ext (cfg : SyncConfig)
    (commit : CommitInfo) (src : List Char → Option (List Char))
    (st0 : DestState) (dry : Bool)
    (commitFn : DestState → List Char → CommitOutcome) :
    ∃ t, (sync_single_commit cfg commit src st0 dry commitFn).2.1
      = (collectChanges cfg commit src st0 dry).ev ++ t := by
  unfold sync_single_commit
  exact syncCommitPhase_ev cfg commit dry commitFn
    (collectChanges cfg commit src st0 dry)

/-! ## C6: directory-mapping change classification and translation -/

/-- C6: a change is relevant to a directory mapping iff its path
starts with the mapping's source path followed by `/` and the
remainder passes the path filter; every relevant non-deleted file
whose content exists at the source commit is written at
`resolved_public_path + "/" + relative_path` and that path is staged
(appears in the staged path list of the `stage` event). -/
theorem C6_directory_mapping_classifier (commit : CommitInfo)
    (project : ProjectMapping) (cfg : SyncConfig) (ch : FileChange) :
    (ch ∈ filter_commit_files commit project cfg ↔
      ch ∈ commit.files_changed ∧
        startsWithL ch.path (projectPrefixOf project) = true ∧
        should_include_file (ch.path.drop (projectPrefixOf project).length)
          project cfg = true)
    ∧ (∀ (src : List Char → Option (List Char)) (st0 : DestState)
        (commitFn : DestState → List Char → CommitOutcome)
        (content : List Char),
        project ∈ cfg.get_enabled_projects →
        ch ∈ filter_commit_files commit project cfg →
        ch.change_type ≠ "D".data →
        src ch.path = some content →
        SyncEvent.write (destPathOf project ch) content
            ∈ (sync_single_commit cfg commit src st0 false commitFn).2.1
          ∧ ∃ fsl, SyncEvent.stage fsl
              ∈ (sync_single_commit cfg commit src st0 false commitFn).2.1
            ∧ destPathOf project ch ∈ fsl) := by
  constructor
  · unfold filter_commit_files
    rw [List.mem_filter, Bool.and_eq_true]
  · intro src st0 commitFn content hproj hch hD hsrc
    have hkey := collectChanges_project_write cfg commit src st0 project ch
      content hproj hch hD hsrc
    constructor
    · obtain ⟨t, ht⟩ := sync_single_commit_ev_ext cfg commit src st0 false
        commitFn
      rw [ht]
      exact List.mem_append_left _ hkey.1
    · exact ⟨(collectChanges cfg commit src st0 false).files_to_stage,
        sync_single_commit_stage_event cfg commit src st0 commitFn
          (List.ne_nil_of_mem hkey.2), hkey.2⟩


/-! ## Shared concrete fixtures for witnesses -/

def exProject : ProjectMapping := ⟨"pkg".data, none, true, [], []⟩

def exFileMapping : FileMapping :=
  ⟨"README.md".data, some "docs/README.md".data, true, [], []⟩

def exCfg : SyncConfig :=
  ⟨[exProject], [exFileMapping], [".env".data], "[sync]".data⟩

def exChange : FileChange := ⟨"pkg/b.txt".data, "A".data, none⟩

def exChangeFile : FileChange := ⟨"README.md".data, "M".data, none⟩

def exCommit : CommitInfo :=
  ⟨"aaaaaaaaaaaaaaaaaaaaaaaaaaaaaaaaaaaaaaaa".data, "aaaaaaaa".data,
    "add b".data, "An".data, "an@example.com".data, 1700000001,
    "An".data, "an@example.com".data, 1700000001,
    [exChange, exChangeFile]⟩

def exSource : List Char → Option (List Char) := fun p =>
  if p == "pkg/b.txt".data then some "content".data
  else if p == "README.md".data then some "readme".data
  else none

def exCommitFn : DestState → List Char → CommitOutcome :=
  fun _ _ => .ok "ffffffffffffffffffffffffffffffffffffffff".data

def exDest : DestState := ⟨[], [], [], []⟩

/-- C4 witness: the message/author theorem applied to a concrete
replication. -/
theorem C4_commit_message_and_author_witness :
    (sync_single_commit exCfg exCommit exSource exDest false
        exCommitFn).1.commits
      = exDest.commits ++
        [{ message := exCfg.commit_prefix_tag ++ ' ' :: exCommit.message ++
             "\n\nsynced_from: ".data ++ exCommit.hash,
           author := some (exCommit.author_name, exCommit.author_email),
           author_date := some exCommit.author_date,
           hash := "ffffffffffffffffffffffffffffffffffffffff".data }] :=
  C4_commit_message_and_author exCfg exCommit exSource exDest exCommitFn
    (sync_single_commit exCfg exCommit exSource exDest false exCommitFn).1
    (sync_single_commit exCfg exCommit exSource exDest false exCommitFn).2.1
    "ffffffffffffffffffffffffffffffffffffffff".data
    (by decide) (by decide) (by decide)

/-- C6 witness: the classifier theorem applied to a concrete commit,
mapping and change. -/
theorem C6_directory_mapping_classifier_witness :
    SyncEvent.write (destPathOf exProject exChange) "content".data
        ∈ (sync_single_commit exCfg exCommit exSource exDest false
            exCommitFn).2.1
      ∧ ∃ fsl, SyncEvent.stage fsl
          ∈ (sync_single_commit exCfg exCommit exSource exDest false
              exCommitFn).2.1
        ∧ destPathOf exProject exChange ∈ fsl :=
  (C6_directory_mapping_classifier exCommit exProject exCfg exChange).2
    exSource exDest exCommitFn "content".data
    (by decide) (by decide) (by decide) (by decide)


/-! ## C7: single-file mappings -/

theorem processFileChangeFor_skip (src : List Char → Option (List Char))
    (dry : Bool) (fm : FileMapping) (acc : ReplicateAcc) (ch : FileChange)
    (h : ch.path ≠ fm.private_path) :
    processFileChangeFor src dry fm acc ch = acc := by
  unfold processFileChangeFor
  rw [if_neg (by simpa using h)]

theorem foldl_fix {α β : Type} (f : α → β → α) (l : List β)
    (hf : ∀ b ∈ l, ∀ a, f a b = a) : ∀ a, l.foldl f a = a := by
  induction l with
  | nil => intro a; rfl
  | cons b l ih =>
    intro a
    rw [List.foldl_cons, hf b (List.mem_cons_self _ _),
      ih (fun b hb a => hf b (List.mem_cons_of_mem _ hb) a)]

/-- C7: (i) an enabled single-file mapping picks up exactly the
changes whose path equals its source path — such a change (non-deleted,
with content at the source commit) is materialized and staged at the
mapping's resolved public path; (ii) no pattern filtering applies to
single-file mappings: with a lone enabled file mapping, changing its
exclude/include pattern lists and the global exclude patterns leaves
the replication of any commit unchanged; (iii) a commit none of whose
changed paths equals any enabled mapping's source path (and no project
mappings) produces no events and signals "no relevant change". -/
theorem C7_single_file_mapping (commit : CommitInfo) :
    (∀ (cfg : SyncConfig) (fm : FileMapping)
        (src : List Char → Option (List Char)) (st0 : DestState)
        (commitFn : DestState → List Char → CommitOutcome)
        (ch : FileChange) (content : List Char),
        fm ∈ cfg.get_enabled_files → ch ∈ commit.files_changed →
        ch.path = fm.private_path → ch.change_type ≠ "D".data →
        src ch.path = some content →
        SyncEvent.write fm.resolved_public_path content
            ∈ (sync_single_commit cfg commit src st0 false commitFn).2.1
          ∧ ∃ fsl, SyncEvent.stage fsl
              ∈ (sync_single_commit cfg commit src st0 false commitFn).2.1
            ∧ fm.resolved_public_path ∈ fsl)
    ∧ (∀ (pp : List Char) (pub : Option (List Char))
        (ex inc ex2 inc2 gex gex2 : List (List Char)) (tag : List Char)
        (src : List Char → Option (List Char)) (st0 : DestState)
        (dry : Bool) (commitFn : DestState → List Char → CommitOutcome),
        sync_single_commit ⟨[], [⟨pp, pub, true, ex, inc⟩], gex, tag⟩
            commit src st0 dry commitFn
          = sync_single_commit ⟨[], [⟨pp, pub, true, ex2, inc2⟩], gex2, tag⟩
            commit src st0 dry commitFn)
    ∧ (∀ (cfg : SyncConfig) (src : List Char → Option (List Char))
        (st0 : DestState) (dry : Bool)
        (commitFn : DestState → List Char → CommitOutcome),
        cfg.projects = [] →
        (∀ ch ∈ commit.files_changed, ∀ fm ∈ cfg.get_enabled_files,
          ch.path ≠ fm.private_path) →
        sync_single_commit cfg commit src st0 dry commitFn
          = (st0, [], .noChange)) := by
  refine ⟨?_, ?_, ?_⟩
  · intro cfg fm src st0 commitFn ch content hfm hch hpath hD hsrc
    have hkey := collectChanges_file_write cfg commit src st0 fm ch content
      hfm hch hpath hD hsrc
    constructor
    · obtain ⟨t, ht⟩ := sync_single_commit_ev_ext cfg commit src st0 false
        commitFn
      rw [ht]
      exact List.mem_append_left _ hkey.1
    · exact ⟨(collectChanges cfg commit src st0 false).files_to_stage,
        sync_single_commit_stage_event cfg commit src st0 commitFn
          (List.ne_nil_of_mem hkey.2), hkey.2⟩
  · intro pp pub ex inc ex2 inc2 gex gex2 tag src st0 dry commitFn
    rfl
  · intro cfg src st0 dry commitFn hproj hnone
    have hcollect : collectChanges cfg commit src st0 dry
        = ⟨st0, [], [], []⟩ := by
      unfold collectChanges
      have h1 : cfg.get_enabled_projects = [] := by
        unfold SyncConfig.get_enabled_projects
        rw [hproj]
        rfl
      rw [h1, List.foldl_nil]
      exact foldl_fix _ _ (fun fm hfm acc => by
        unfold processFileMapping
        exact foldl_fix _ _ (fun ch hch a =>
          processFileChangeFor_skip src dry fm a ch
            (hnone ch hch fm hfm)) acc) _
    unfold sync_single_commit
    rw [hcollect]
    rfl

/-- C7 witness: the single-file theorem applied to the README mapping
of the concrete fixture. -/
theorem C7_single_file_mapping_witness :
    SyncEvent.write exFileMapping.resolved_public_path "readme".data
        ∈ (sync_single_commit exCfg exCommit exSource exDest false
            exCommitFn).2.1
      ∧ ∃ fsl, SyncEvent.stage fsl
          ∈ (sync_single_commit exCfg exCommit exSource exDest false
              exCommitFn).2.1
        ∧ exFileMapping.resolved_public_path ∈ fsl :=
  (C7_single_file_mapping exCommit).1 exCfg exFileMapping exSource exDest
    exCommitFn exChangeFile "readme".data
    (by decide) (by decide) (by decide) (by decide) (by decide)


/-! ## C8: "no relevant change" is not an error -/

/-- C8: (i) when filtering stages nothing and removes nothing, the
replicator returns "no relevant change" and creates no destination
commit; (ii) when `git commit` fails with a "nothing to commit"
message the outcome is likewise "no relevant change" and no commit is
created, while any other commit failure propagates as an error;
(iii) at the orchestrator loop a "no relevant change" commit leaves
the running result — in particular the hash mapping — untouched. -/
theorem C8_no_relevant_change :
    (∀ (cfg : SyncConfig) (commit : CommitInfo)
        (src : List Char → Option (List Char)) (st0 : DestState)
        (dry : Bool) (commitFn : DestState → List Char → CommitOutcome),
        (collectChanges cfg commit src st0 dry).files_to_stage = [] →
        (collectChanges cfg commit src st0 dry).files_to_remove = [] →
        sync_single_commit cfg commit src st0 dry commitFn
            = ((collectChanges cfg commit src st0 dry).st,
                (collectChanges cfg commit src st0 dry).ev, .noChange)
          ∧ (sync_single_commit cfg commit src st0 dry
              commitFn).1.commits = st0.commits)
    ∧ (∀ (cfg : SyncConfig) (commit : CommitInfo)
        (src : List Char → Option (List Char)) (st0 : DestState)
        (commitFn : DestState → List Char → CommitOutcome) (m : List Char),
        ((collectChanges cfg commit src st0 false).files_to_stage.isEmpty
          && (collectChanges cfg commit src st0
              false).files_to_remove.isEmpty) = false →
        commitFn (stagePhase (collectChanges cfg commit src st0 false).st
            (collectChanges cfg commit src st0 false).files_to_stage
            (collectChanges cfg commit src st0 false).files_to_remove).1
          (mkCommitMessage cfg commit) = .err m →
        (containsSub (toLowerL m) "nothing to commit".data = true →
          (sync_single_commit cfg commit src st0 false commitFn).2.2
              = .noChange
            ∧ (sync_single_commit cfg commit src st0 false
                commitFn).1.commits = st0.commits)
          ∧ (containsSub (toLowerL m) "nothing to commit".data = false →
            (sync_single_commit cfg commit src st0 false commitFn).2.2
              = .error m))
    ∧ (∀ (cfg : SyncConfig)
        (srcAt : List Char → List Char → Option (List Char))
        (commitFn : DestState → List Char → CommitOutcome) (dry : Bool)
        (c : CommitInfo) (rest : List CommitInfo) (st st2 : DestState)
        (ev2 : List SyncEvent) (res : SyncResult),
        sync_single_commit cfg c (srcAt c.hash) st dry commitFn
            = (st2, ev2, .noChange) →
        syncLoop cfg srcAt commitFn dry (c :: rest) st res
          = syncLoop cfg srcAt commitFn dry rest st2 res) := by
  refine ⟨?_, ?_, ?_⟩
  · intro cfg commit src st0 dry commitFn hfs hfr
    have hcond : ((collectChanges cfg commit src st0 dry).files_to_stage.isEmpty
        && (collectChanges cfg commit src st0
            dry).files_to_remove.isEmpty) = true := by
      rw [hfs, hfr]
      rfl
    have hrun : sync_single_commit cfg commit src st0 dry commitFn
        = ((collectChanges cfg commit src st0 dry).st,
            (collectChanges cfg commit src st0 dry).ev, .noChange) := by
      unfold sync_single_commit syncCommitPhase
      rw [if_pos hcond]
    refine ⟨hrun, ?_⟩
    rw [hrun]
    exact collectChanges_commits cfg commit src st0 dry
  · intro cfg commit src st0 commitFn m hne hcf
    have hcond : ¬((collectChanges cfg commit src st0
        false).files_to_stage.isEmpty
        && (collectChanges cfg commit src st0
            false).files_to_remove.isEmpty) = true := by
      rw [hne]
      simp
    constructor
    · intro hntc
      have hrun : sync_single_commit cfg commit src st0 false commitFn
          = ((stagePhase (collectChanges cfg commit src st0 false).st
                (collectChanges cfg commit src st0 false).files_to_stage
                (collectChanges cfg commit src st0
                  false).files_to_remove).1,
              (collectChanges cfg commit src st0 false).ev ++
                (stagePhase (collectChanges cfg commit src st0 false).st
                  (collectChanges cfg commit src st0 false).files_to_stage
                  (collectChanges cfg commit src st0
                    false).files_to_remove).2, .noChange) := by
        unfold sync_single_commit syncCommitPhase commitStep
        rw [if_neg hcond, if_neg (by simp), if_neg hcond, hcf]
        simp only
        rw [if_pos hntc]
      refine ⟨by rw [hrun], ?_⟩
      rw [hrun]
      exact (stagePhase_commits _ _ _).trans
        (collectChanges_commits cfg commit src st0 false)
    · intro hntc
      have hrun : (sync_single_commit cfg commit src st0 false
          commitFn).2.2 = .error m := by
        unfold sync_single_commit syncCommitPhase commitStep
        rw [if_neg hcond, if_neg (by simp), if_neg hcond, hcf]
        simp only
        rw [if_neg (by rw [hntc]; simp)]
      exact hrun
  · intro cfg srcAt commitFn dry c rest st st2 ev2 res hx
    simp only [syncLoop]
    rw [hx]

/-- C8 witness: a commit touching no mapped path yields "no relevant
change" with no destination mutation and no commit. -/
def exCommitNone : CommitInfo :=
  ⟨"bbbbbbbbbbbbbbbbbbbbbbbbbbbbbbbbbbbbbbbb".data, "bbbbbbbb".data,
    "unrelated".data, "An".data, "an@example.com".data, 1700000002,
    "An".data, "an@example.com".data, 1700000002,
    [⟨"other/x.txt".data, "A".data, none⟩]⟩

theorem C8_no_relevant_change_witness :
    sync_single_commit exCfg exCommitNone exSource exDest false exCommitFn
        = (exDest, ([] : List SyncEvent), .noChange)
      ∧ (sync_single_commit exCfg exCommitNone exSource exDest false
          exCommitFn).1.commits = exDest.commits :=
  C8_no_relevant_change.1 exCfg exCommitNone exSource exDest false
    exCommitFn (by decide) (by decide)

/-! ## C9: fail-fast error handling with no rollback -/

theorem sync_single_commit_commits_ext (cfg : SyncConfig)
    (commit : CommitInfo) (src : List Char → Option (List Char))
    (st0 : DestState) (dry : Bool)
    (commitFn : DestState → List Char → CommitOutcome) :
    ∃ t, (sync_single_commit cfg commit src st0 dry commitFn).1.commits
      = st0.commits ++ t := by
  unfold sync_single_commit syncCommitPhase
  by_cases hempty : ((collectChanges cfg commit src st0
      dry).files_to_stage.isEmpty
      && (collectChanges cfg commit src st0
          dry).files_to_remove.isEmpty) = true
  · rw [if_pos hempty]
    exact ⟨[], by
      rw [List.append_nil]
      exact collectChanges_commits cfg commit src st0 dry⟩
  · rw [if_neg hempty]
    by_cases hdry : dry = true
    · rw [if_pos hdry]
      exact ⟨[], by
        rw [List.append_nil]
        exact collectChanges_commits cfg commit src st0 dry⟩
    · rw [if_neg hdry]
      unfold commitStep
      rw [if_neg hempty]
      rcases hcf : commitFn (stagePhase (collectChanges cfg commit src st0
          dry).st (collectChanges cfg commit src st0 dry).files_to_stage
          (collectChanges cfg commit src st0 dry).files_to_remove).1
          (mkCommitMessage cfg commit) with h | m
      · refine ⟨[mkSyncRecord cfg commit h], ?_⟩
        show (stagePhase (collectChanges cfg commit src st0 dry).st
            (collectChanges cfg commit src st0 dry).files_to_stage
            (collectChanges cfg commit src st0
              dry).files_to_remove).1.commits
          ++ [mkSyncRecord cfg commit h] = st0.commits
            ++ [mkSyncRecord cfg commit h]
        rw [stagePhase_commits, collectChanges_commits]
      · simp only
        by_cases hntc : containsSub (toLowerL m)
            "nothing to commit".data = true
        · rw [if_pos hntc]
          exact ⟨[], by
            rw [List.append_nil]
            exact (stagePhase_commits _ _ _).trans
              (collectChanges_commits cfg commit src st0 dry)⟩
        · rw [if_neg hntc]
          exact ⟨[], by
            rw [List.append_nil]
            exact (stagePhase_commits _ _ _).trans
              (collectChanges_commits cfg commit src st0 dry)⟩

theorem syncLoop_commits_ext (cfg : SyncConfig)
    (srcAt : List Char → List Char → Option (List Char))
    (commitFn : DestState → List Char → CommitOutcome) (dry : Bool) :
    ∀ (pending : List CommitInfo) (st : DestState) (res : SyncResult),
      ∃ t, (syncLoop cfg srcAt commitFn dry pending st res).1.commits
        = st.commits ++ t := by
  intro pending
  induction pending with
  | nil => intro st res; exact ⟨[], by simp [syncLoop]⟩
  | cons c rest ih =>
    intro st res
    obtain ⟨u, hu⟩ := sync_single_commit_commits_ext cfg c (srcAt c.hash)
      st dry commitFn
    rcases hx : sync_single_commit cfg c (srcAt c.hash) st dry commitFn
      with ⟨st2, ev2, out⟩
    rw [hx] at hu
    rcases out with h | _ | m
    · obtain ⟨v, hv⟩ := ih st2
        { res with
            commit_mappings := dictInsert res.commit_mappings c.hash h,
            commits_synced := res.commits_synced + 1,
            files_changed := res.files_changed + c.files_changed.length }
      refine ⟨u ++ v, ?_⟩
      simp only [syncLoop]
      rw [hx]
      simp only
      rw [hv, hu, List.append_assoc]
    · obtain ⟨v, hv⟩ := ih st2 res
      refine ⟨u ++ v, ?_⟩
      simp only [syncLoop]
      rw [hx]
      simp only
      rw [hv, hu, List.append_assoc]
    · refine ⟨u, ?_⟩
      simp only [syncLoop]
      rw [hx]
      simp only
      rw [hu]

/-- C9: when replicating one pending commit raises an error, the run
loop records the formatted error, marks the result unsuccessful, and
returns without touching the remaining commits (the equation does not
depend on `rest`); and across any run the destination commit log only
ever grows — every commit created before the failure is kept. -/
theorem C9_error_fail_fast :
    (∀ (cfg : SyncConfig)
        (srcAt : List Char → List Char → Option (List Char))
        (commitFn : DestState → List Char → CommitOutcome) (dry : Bool)
        (c : CommitInfo) (rest : List CommitInfo) (st st2 : DestState)
        (ev2 : List SyncEvent) (m : List Char) (res : SyncResult),
        sync_single_commit cfg c (srcAt c.hash) st dry commitFn
            = (st2, ev2, .error m) →
        syncLoop cfg srcAt commitFn dry (c :: rest) st res
          = (st2, { res with
              errors := res.errors ++ [errFmt c m],
              success := false }))
    ∧ (∀ (cfg : SyncConfig)
        (srcAt : List Char → List Char → Option (List Char))
        (commitFn : DestState → List Char → CommitOutcome) (dry : Bool)
        (pending : List CommitInfo) (st : DestState) (res : SyncResult),
        ∃ t, (syncLoop cfg srcAt commitFn dry pending st res).1.commits
          = st.commits ++ t) := by
  constructor
  · intro cfg srcAt commitFn dry c rest st st2 ev2 m res hx
    simp only [syncLoop]
    rw [hx]
  · intro cfg srcAt commitFn dry pending st res
    exact syncLoop_commits_ext cfg srcAt commitFn dry pending st res

/-- The oracle used by the C9 witness: `git commit` always fails. -/
def exFailFn : DestState → List Char → CommitOutcome :=
  fun _ _ => .err "boom".data

/-- C9 witness: the fail-fast equation applied to a concrete failing
run (the second pending commit is never processed). -/
theorem C9_error_fail_fast_witness :
    syncLoop exCfg (fun _ => exSource) exFailFn false
        [exCommit, exCommitNone] exDest initSyncResult
      = ((sync_single_commit exCfg exCommit exSource exDest false
            exFailFn).1,
          { initSyncResult with
              errors := initSyncResult.errors ++
                [errFmt exCommit "boom".data],
              success := false }) :=
  C9_error_fail_fast.1 exCfg (fun _ => exSource) exFailFn false exCommit
    [exCommitNone] exDest
    (sync_single_commit exCfg exCommit exSource exDest false exFailFn).1
    (sync_single_commit exCfg exCommit exSource exDest false exFailFn).2.1
    "boom".data initSyncResult (by decide)


/-! ## C10: commits_synced equals the number of mapping entries -/

theorem dictInsert_fresh (m : List (List Char × List Char))
    (k v : List Char) (h : ∀ e ∈ m, e.1 ≠ k) :
    dictInsert m k v = m ++ [(k, v)] := by
  unfold dictInsert
  rw [if_neg]
  intro hany
  rcases List.any_eq_true.mp hany with ⟨e, he, heq⟩
  exact h e he (beq_iff_eq.mp heq)

theorem syncLoop_count_inv (cfg : SyncConfig)
    (srcAt : List Char → List Char → Option (List Char))
    (commitFn : DestState → List Char → CommitOutcome) (dry : Bool) :
    ∀ (pending : List CommitInfo) (st : DestState) (res : SyncResult),
      (pending.map (fun c => c.hash)).Nodup →
      (∀ e ∈ res.commit_mappings, e.1 ∉ pending.map (fun c => c.hash)) →
      res.commits_synced = res.commit_mappings.length →
      (syncLoop cfg srcAt commitFn dry pending st res).2.commits_synced
          = (syncLoop cfg srcAt commitFn dry pending st
              res).2.commit_mappings.length
        ∧ ∀ e ∈ (syncLoop cfg srcAt commitFn dry pending st
              res).2.commit_mappings,
            e.1 ∈ pending.map (fun c => c.hash) ∨
              e ∈ res.commit_mappings := by
  intro pending
  induction pending with
  | nil =>
    intro st res _ _ hcount
    exact ⟨hcount, fun e he => Or.inr he⟩
  | cons c rest ih =>
    intro st res hnodup hfresh hcount
    have hnodup2 : (rest.map (fun c => c.hash)).Nodup :=
      (List.nodup_cons.mp (by simpa using hnodup)).2
    have hcnotin : c.hash ∉ rest.map (fun c => c.hash) :=
      (List.nodup_cons.mp (by simpa using hnodup)).1
    rcases hx : sync_single_commit cfg c (srcAt c.hash) st dry commitFn
      with ⟨st2, ev2, out⟩
    rcases out with h | _ | m
    · have hkfresh : ∀ e ∈ res.commit_mappings, e.1 ≠ c.hash := by
        intro e he heq
        apply hfresh e he
        rw [heq]
        simp
      have hins : dictInsert res.commit_mappings c.hash h
          = res.commit_mappings ++ [(c.hash, h)] :=
        dictInsert_fresh _ _ _ hkfresh
      have hih := ih st2
        { res with
            commit_mappings := dictInsert res.commit_mappings c.hash h,
            commits_synced := res.commits_synced + 1,
            files_changed := res.files_changed + c.files_changed.length }
        hnodup2
        (by
          intro e he hmem
          simp only [hins] at he
          rcases List.mem_append.mp he with he | he
          · exact hfresh e he (List.mem_cons_of_mem _ hmem)
          · rcases List.mem_singleton.mp he with rfl
            exact hcnotin hmem)
        (by simp [hins, hcount])
      constructor
      · have := hih.1
        simp only [syncLoop]
        rw [hx]
        exact this
      · intro e he
        have he2 : e ∈ (syncLoop cfg srcAt commitFn dry rest st2
            { res with
                commit_mappings := dictInsert res.commit_mappings c.hash h,
                commits_synced := res.commits_synced + 1,
                files_changed := res.files_changed +
                  c.files_changed.length }).2.commit_mappings := by
          have hgoal := he
          simp only [syncLoop] at hgoal
          rw [hx] at hgoal
          exact hgoal
        rcases hih.2 e he2 with hmem | hmem
        · exact Or.inl (List.mem_cons_of_mem _ hmem)
        · rw [hins] at hmem
          rcases List.mem_append.mp hmem with hmem | hmem
          · exact Or.inr hmem
          · rcases List.mem_singleton.mp hmem with rfl
            exact Or.inl (by simp)
    · have hih := ih st2 res hnodup2
        (fun e he hmem => hfresh e he (List.mem_cons_of_mem _ hmem))
        hcount
      constructor
      · have := hih.1
        simp only [syncLoop]
        rw [hx]
        exact this
      · intro e he
        have he2 : e ∈ (syncLoop cfg srcAt commitFn dry rest st2
            res).2.commit_mappings := by
          have hgoal := he
          simp only [syncLoop] at hgoal
          rw [hx] at hgoal
          exact hgoal
        rcases hih.2 e he2 with hmem | hmem
        · exact Or.inl (List.mem_cons_of_mem _ hmem)
        · exact Or.inr hmem
    · constructor
      · simp only [syncLoop]
        rw [hx]
        exact hcount
      · intro e he
        have he2 : e ∈ res.commit_mappings := by
          have hgoal := he
          simp only [syncLoop] at hgoal
          rw [hx] at hgoal
          exact hgoal
        exact Or.inr he2

/-- C10: for every run (dry or not) over pending commits with
pairwise-distinct source hashes, the returned result satisfies
`commits_synced = commit_mappings.length`, and every mapping entry is
keyed by one of the pending commits' hashes; commits replicating to a
hash contribute exactly one entry and one count, no-change commits
contribute neither. -/
theorem C10_count_matches_mappings (cfg : SyncConfig)
    (pending : List CommitInfo)
    (srcAt : List Char → List Char → Option (List Char))
    (commitFn : DestState → List Char → CommitOutcome)
    (dest0 : DestState) (dry : Bool)
    (hnodup : (pending.map (fun c => c.hash)).Nodup) :
    (sync_run cfg pending srcAt commitFn dest0 dry).2.commits_synced
        = (sync_run cfg pending srcAt commitFn dest0
            dry).2.commit_mappings.length
      ∧ ∀ e ∈ (sync_run cfg pending srcAt commitFn dest0
            dry).2.commit_mappings,
          e.1 ∈ pending.map (fun c => c.hash) := by
  have h := syncLoop_count_inv cfg srcAt commitFn dry pending dest0
    initSyncResult hnodup (by intro e he; simp [initSyncResult] at he) rfl
  refine ⟨h.1, ?_⟩
  intro e he
  rcases h.2 e he with hmem | hmem
  · exact hmem
  · simp [initSyncResult] at hmem

/-- C10 witness: a concrete two-commit run (one replicated, one with
no relevant changes). -/
theorem C10_count_matches_mappings_witness :
    (sync_run exCfg [exCommit, exCommitNone] (fun _ => exSource)
        exCommitFn exDest false).2.commits_synced
      = (sync_run exCfg [exCommit, exCommitNone] (fun _ => exSource)
          exCommitFn exDest false).2.commit_mappings.length :=
  (C10_count_matches_mappings exCfg [exCommit, exCommitNone]
    (fun _ => exSource) exCommitFn exDest false (by decide)).1


/-! ## C5: pending-commit enumeration
(`GitRepository.get_commits_since`, `RepoSyncer.get_pending_commits`)

`repo.iter_commits` is modelled as an oracle from queries to either a
newest-first commit list or a git error (`GitCommandError`, raised for
example when the resume hash does not resolve). -/

/-- A `git rev-list` style query: either `since..branch` or the whole
branch, optionally path-restricted. -/
inductive IterQuery where
  | range (since_commit : List Char) (branch : List Char)
      (paths : Option (List (List Char)))
  | all (branch : List Char) (paths : Option (List (List Char)))
deriving DecidableEq, Repr

/-- Result of an `iter_commits` call. -/
inductive IterResult where
  | ok (commits : List CommitInfo)
  | err
deriving DecidableEq, Repr

/-- Python truthiness of the optional path list (`if paths:`): an
empty list counts as no restriction. -/
def usePaths : Option (List (List Char)) → Option (List (List Char))
  | some (p :: ps) => some (p :: ps)
  | _ => none

/-- `GitRepository.get_commits_since(since_commit, branch, paths)`:
with a resume point, try `since..target`; on `GitCommandError` fall
back to the whole branch; finally reverse the newest-first listing to
chronological (oldest-first) order.  Errors of the fallback query
propagate. -/
def get_commits_since (iter : IterQuery → IterResult)
    (currentBranch : List Char) (since_commit : Option (List Char))
    (branch : Option (List Char)) (paths : Option (List (List Char))) :
    IterResult :=
  match since_commit with
  | some s =>
    match iter (.range s (branch.getD currentBranch) (usePaths paths)) with
    | .ok commits => .ok commits.reverse
    | .err =>
      match iter (.all (branch.getD currentBranch) (usePaths paths)) with
      | .ok commits => .ok commits.reverse
      | .err => .err
  | none =>
    match iter (.all (branch.getD currentBranch) (usePaths paths)) with
    | .ok commits => .ok commits.reverse
    | .err => .err

/-- The union of the enabled mappings' source paths (private-to-public
direction): project directories then individual files. -/
def syncPathsOf (cfg : SyncConfig) : List (List Char) :=
  cfg.get_enabled_projects.map (fun p => p.private_path) ++
    cfg.get_enabled_files.map (fun f => f.private_path)

/-- `RepoSyncer.get_pending_commits` (private-to-public): resume point
from the destination's commit messages, then `get_commits_since` on
the source branch restricted to the enabled mappings' paths
(`paths=sync_paths if sync_paths else None`). -/
def get_pending_commits (cfg : SyncConfig)
    (destMessages : List (List Char)) (iter : IterQuery → IterResult)
    (srcCurrentBranch : List Char) : IterResult :=
  get_commits_since iter srcCurrentBranch
    (get_last_synced_commit destMessages cfg.commit_prefix_tag) none
    (if (syncPathsOf cfg).isEmpty then none else some (syncPathsOf cfg))

/-- The path restriction actually sent with both queries. -/
def pendingQueryPaths (cfg : SyncConfig) : Option (List (List Char)) :=
  usePaths (if (syncPathsOf cfg).isEmpty then none
            else some (syncPathsOf cfg))

/-- Following the claim's words, for the C5 counterexample: "if none
are found in that range it falls back to enumerating all matching
commits from the beginning of history" — i.e. an *empty* (but
successful) range enumeration would already trigger the fallback. -/
def specFallbackOnEmptyRange : Prop :=
  ∀ (iter : IterQuery → IterResult) (b s : List Char)
    (full : List CommitInfo),
    iter (.range s b none) = .ok [] →
    iter (.all b none) = .ok full →
    get_commits_since iter b (some s) none none = .ok full.reverse

/-- A one-commit history for the C5 counterexample. -/
def c5Commit : CommitInfo :=
  ⟨"cccccccccccccccccccccccccccccccccccccccc".data, "cccccccc".data,
    "old work".data, "An".data, "an@example.com".data, 1600000000,
    "An".data, "an@example.com".data, 1600000000,
    [⟨"pkg/z.txt".data, "A".data, none⟩]⟩

/-- The oracle for the C5 counterexample: the range query succeeds
with no commits, the full enumeration has one commit. -/
def c5Iter : IterQuery → IterResult := fun q =>
  match q with
  | .range _ _ _ => .ok []
  | .all _ _ => .ok [c5Commit]

/-- C5 counterexample: the claim's fallback condition ("none found in
that range") is wrong on the code — with a resolvable resume point
whose range is empty, `get_commits_since` returns the empty list and
does *not* fall back to the beginning of history. -/
theorem C5_counterexample : ¬ specFallbackOnEmptyRange := by
  intro hspec
  have hinst := hspec c5Iter "main".data "s".data [c5Commit] rfl rfl
  have hcode : get_commits_since c5Iter "main".data (some "s".data)
      none none = .ok [] := rfl
  rw [hcode] at hinst
  exact absurd hinst (by decide)

/-- C5 (amended): enumeration uses the resume point extracted from the
destination's commit messages and queries the source branch restricted
to the enabled mappings' source paths; with a resolvable resume point
the strictly-after range listing is simply reversed into oldest-first
order (even when empty — no fallback); the fallback to whole-history
enumeration happens exactly when the range query *fails*, i.e. when
the resume hash is no longer resolvable; and reversing a newest-first
listing yields an oldest-first one. -/
theorem C5_get_pending_commits_spec :
    (∀ (cfg : SyncConfig) (msgs : List (List Char))
        (iter : IterQuery → IterResult) (b s : List Char)
        (l : List CommitInfo),
        get_last_synced_commit msgs cfg.commit_prefix_tag = some s →
        iter (.range s b (pendingQueryPaths cfg)) = .ok l →
        get_pending_commits cfg msgs iter b = .ok l.reverse)
    ∧ (∀ (cfg : SyncConfig) (msgs : List (List Char))
        (iter : IterQuery → IterResult) (b s : List Char),
        get_last_synced_commit msgs cfg.commit_prefix_tag = some s →
        iter (.range s b (pendingQueryPaths cfg)) = .err →
        get_pending_commits cfg msgs iter b
          = (match iter (.all b (pendingQueryPaths cfg)) with
             | .ok l => .ok l.reverse
             | .err => .err))
    ∧ (∀ (cfg : SyncConfig) (msgs : List (List Char))
        (iter : IterQuery → IterResult) (b : List Char)
        (l : List CommitInfo),
        get_last_synced_commit msgs cfg.commit_prefix_tag = none →
        iter (.all b (pendingQueryPaths cfg)) = .ok l →
        get_pending_commits cfg msgs iter b = .ok l.reverse)
    ∧ (∀ cfg : SyncConfig, syncPathsOf cfg
        = cfg.get_enabled_projects.map (fun p => p.private_path) ++
          cfg.get_enabled_files.map (fun f => f.private_path))
    ∧ (∀ l : List CommitInfo,
        l.Sorted (fun a b => a.commit_date ≥ b.commit_date) →
        l.reverse.Sorted (fun a b => a.commit_date ≤ b.commit_date)) := by
  refine ⟨?_, ?_, ?_, fun cfg => rfl, ?_⟩
  · intro cfg msgs iter b s l hlast hiter
    unfold get_pending_commits get_commits_since
    rw [hlast]
    simp only
    rw [show (none : Option (List Char)).getD b = b from rfl]
    rw [show usePaths (if (syncPathsOf cfg).isEmpty then none
          else some (syncPathsOf cfg)) = pendingQueryPaths cfg from rfl]
    rw [hiter]
  · intro cfg msgs iter b s hlast hiter
    unfold get_pending_commits get_commits_since
    rw [hlast]
    simp only
    rw [show (none : Option (List Char)).getD b = b from rfl]
    rw [show usePaths (if (syncPathsOf cfg).isEmpty then none
          else some (syncPathsOf cfg)) = pendingQueryPaths cfg from rfl]
    rw [hiter]
  · intro cfg msgs iter b l hlast hiter
    unfold get_pending_commits get_commits_since
    rw [hlast]
    simp only
    rw [show (none : Option (List Char)).getD b = b from rfl]
    rw [show usePaths (if (syncPathsOf cfg).isEmpty then none
          else some (syncPathsOf cfg)) = pendingQueryPaths cfg from rfl]
    rw [hiter]
  · intro l hl
    rw [List.Sorted, List.pairwise_reverse]
    exact hl.imp (fun h => h)

/-- The oracle for the C5 witness: the range query returns one commit
newest-first. -/
def c5IterOk : IterQuery → IterResult := fun q =>
  match q with
  | .range _ _ _ => .ok [c5Commit]
  | .all _ _ => .err

/-- C5 witness: the enumeration theorem applied to a concrete resume
point and oracle. -/
theorem C5_get_pending_commits_spec_witness :
    get_pending_commits exCfg [c2MsgGood] c5IterOk "main".data
      = .ok [c5Commit].reverse :=
  C5_get_pending_commits_spec.1 exCfg [c2MsgGood] c5IterOk "main".data
    (List.replicate 40 'a') [c5Commit] (by decide) rfl


end GitSyncer
